import Mathlib

/-!
Shallow embedding of the junction-tree / belief-propagation library
(`bp.py` and `junction_tree.py`) and verification of its specification.

Modelling conventions, used throughout:

* Keys (variables) are natural numbers, as in the spec's data model
  ("Key: an integer identifier for a variable").
* A potential (numpy tensor over a key list) is modelled as a function
  from assignments (`Assignment := ℕ → ℕ`) to exact rationals `ℚ`.
  A tensor over keys `ks` is a potential that depends only on the
  coordinates in `ks` (`DependsOnlyOn`); the per-axis extents come from
  the global size map `sizes : ℕ → ℕ`.  numpy floating point is modelled
  by exact rational arithmetic.
* `np.einsum(pot, from_keys, to_keys)` (projection) sums the coordinates
  of `from_keys` that are not in `to_keys`; the positional renaming that
  the source performs before calling einsum (mapping keys to axis
  positions `0..n-1`) is a bijective bookkeeping step and is the identity
  in this assignment-based representation.
* Python exceptions are modelled with `Except PyErr`; a Python operation
  that cannot raise is a plain function.
-/

/-- Python exception kinds relevant to this library. -/
inductive PyErr : Type where
  | typeError : PyErr
  | attributeError : PyErr
  | keyError : PyErr
  | indexError : PyErr
  | valueError : PyErr
  | nameError : PyErr
  | notImplementedError : PyErr
deriving DecidableEq, Repr

/-- An assignment gives every key a coordinate value. -/
abbrev Assignment : Type := ℕ → ℕ

/-- A potential: a tensor entry for every assignment of its keys. -/
abbrev Pot : Type := Assignment → ℚ

/-- The potential table of a junction tree, indexed by clique/separator id
(the Python code stores it as a list indexed by node id). -/
abbrev Potentials : Type := ℕ → Pot

/-- Overwrite one coordinate of an assignment. -/
def setVar (a : Assignment) (k v : ℕ) : Assignment :=
  fun k' => if k' = k then v else a k'

/-- Sum a potential over all values (`0 ≤ v < sizes k`) of the listed keys:
the summation that `np.einsum` performs over contracted axes. -/
def sumOver (sizes : ℕ → ℕ) : List ℕ → Pot → Pot
  | [], p => p
  | k :: ks, p => fun a =>
      ((List.range (sizes k)).map (fun v => sumOver sizes ks p (setVar a k v))).sum

/-- A potential depends only on the coordinates of the keys in `ks`
(the defining property of a tensor whose axes are labelled by `ks`). -/
def DependsOnlyOn (ks : List ℕ) (p : Pot) : Prop :=
  ∀ a b : Assignment, (∀ k ∈ ks, a k = b k) → p a = p b

/-- All assignments of the keys in `ks` (each coordinate below its size,
all other coordinates 0): the index grid of a tensor over `ks`.  Used to
model elementwise tests on a numpy array such as `np.all`. -/
def gridAsgs (sizes : ℕ → ℕ) : List ℕ → List Assignment
  | [] => [fun _ => 0]
  | k :: ks => (List.range (sizes k)).flatMap
      (fun v => (gridAsgs sizes ks).map (fun a => setVar a k v))

namespace SumProduct

/-- Embeds `SumProduct.project` (bp.py line 1013): `np.einsum(clique_pot,
clique_vars, sep_vars)`, i.e. sum over the axes of `clique_vars` that are
not in `sep_vars`. -/
def project (sizes : ℕ → ℕ) (clique_pot : Pot) (clique_vars sep_vars : List ℕ) : Pot :=
  sumOver sizes (clique_vars.filter (fun k => !sep_vars.contains k)) clique_pot

/-- Embeds `SumProduct.absorb` (bp.py line 1018).  The Python guard is
`if np.all(sep_pot) == 0`: `np.all` is True iff every entry is nonzero,
and comparing that boolean with `0` yields True iff SOME entry of
`sep_pot` is zero; the grid of `sep_vars` enumerates the entries of the
separator tensor.  When the guard fires the result is
`np.zeros_like(clique_pot)`; otherwise the result is
`np.einsum(new_sep_pot / sep_pot, sep_vars, clique_pot, clique_vars,
clique_vars)`, the elementwise product of the clique potential with the
ratio broadcast over the separator axes.  `clique_vars` names the clique
axes for einsum and is the identity bookkeeping here. -/
def absorb (sizes : ℕ → ℕ) (clique_pot : Pot) (clique_vars : List ℕ)
    (sep_pot new_sep_pot : Pot) (sep_vars : List ℕ) : Pot :=
  let _ := clique_vars
  if (gridAsgs sizes sep_vars).any (fun a => decide (sep_pot a = 0)) then
    fun _ => 0
  else
    fun a => (new_sep_pot a / sep_pot a) * clique_pot a

/-- Embeds `SumProduct.update` (bp.py line 1028): project clique 1 onto the
separator, absorb the new separator into clique 2, return
`(new_clique_2_pot, new_sep_pot)`. -/
def update (sizes : ℕ → ℕ) (clique_1_pot : Pot) (clique_1_vars : List ℕ)
    (clique_2_pot : Pot) (clique_2_vars : List ℕ)
    (sep_pot : Pot) (sep_vars : List ℕ) : Pot × Pot :=
  let new_sep_pot := project sizes clique_1_pot clique_1_vars sep_vars
  let new_clique_2_pot := absorb sizes clique_2_pot clique_2_vars sep_pot new_sep_pot sep_vars
  (new_clique_2_pot, new_sep_pot)

end SumProduct

/-- A junction tree in the nested-list syntax of bp.py:
`[id, keys, (sep1_id, sep1_keys, child_tree1), ...]`. -/
inductive JTree : Type where
  | node (id : ℕ) (keys : List ℕ) (children : List (ℕ × List ℕ × JTree)) : JTree

/-- Clique id at the root of a tree (`tree[0]`). -/
def JTree.rootId : JTree → ℕ
  | .node i _ _ => i

/-- Clique keys at the root of a tree (`tree[1]`). -/
def JTree.rootKeys : JTree → List ℕ
  | .node _ ks _ => ks

mutual

/-- All clique and separator ids of a tree, root first. -/
def allIds : JTree → List ℕ
  | .node i _ cs => i :: allIdsL cs

/-- All clique and separator ids of a child list. -/
def allIdsL : List (ℕ × List ℕ × JTree) → List ℕ
  | [] => []
  | (s, _, c) :: rest => s :: (allIds c ++ allIdsL rest)

end

mutual

/-- All clique (node) ids of a tree, root first; separator ids excluded.
These are the indices the Python `visited` array is read and written at. -/
def cliqueIds : JTree → List ℕ
  | .node i _ cs => i :: cliqueIdsL cs

/-- All clique ids of a child list. -/
def cliqueIdsL : List (ℕ × List ℕ × JTree) → List ℕ
  | [] => []
  | (_, _, c) :: rest => cliqueIds c ++ cliqueIdsL rest

end

mutual

/-- Every id of the tree paired with its key list (cliques and separators). -/
def idKeys : JTree → List (ℕ × List ℕ)
  | .node i ks cs => (i, ks) :: idKeysL cs

/-- Ids and key lists of a child list. -/
def idKeysL : List (ℕ × List ℕ × JTree) → List (ℕ × List ℕ)
  | [] => []
  | (s, sks, c) :: rest => (s, sks) :: (idKeys c ++ idKeysL rest)

end

/-- One parent--separator--child edge of a junction tree: the parent
clique's id and keys, the separator's id and keys, the child clique's id
and keys. -/
structure JEdge : Type where
  parentId : ℕ
  parentKeys : List ℕ
  sepId : ℕ
  sepKeys : List ℕ
  childId : ℕ
  childKeys : List ℕ
deriving DecidableEq, Repr

mutual

/-- All separator edges of a tree. -/
def edges : JTree → List JEdge
  | .node i ks cs => edgesL i ks cs

/-- All separator edges contributed by a child list under parent `i`. -/
def edgesL (i : ℕ) (ks : List ℕ) : List (ℕ × List ℕ × JTree) → List JEdge
  | [] => []
  | (s, sks, c) :: rest =>
      ⟨i, ks, s, sks, c.rootId, c.rootKeys⟩ :: (edges c ++ edgesL i ks rest)

end

mutual

/-- Embeds `collect` (bp.py line 718): post-order message passing.  Marks
the root visited, then for each unvisited child recurses and applies
`distributive_law.update` with the child as clique 1 and this clique as
clique 2, storing the new clique and separator potentials.  The
`var_labels` parameter of the source is threaded through unused and is
omitted. -/
def collect (sizes : ℕ → ℕ) : JTree → Potentials → (ℕ → Bool) → Potentials × (ℕ → Bool)
  | .node i ks cs, potentials, visited =>
      collectL sizes i ks cs potentials (fun j => if j = i then true else visited j)
termination_by structural t => t

/-- The `for neighbor in tree[2:]` loop of `collect`, processing the
children of clique `i` in order. -/
def collectL (sizes : ℕ → ℕ) (i : ℕ) (ks : List ℕ) :
    List (ℕ × List ℕ × JTree) → Potentials → (ℕ → Bool) → Potentials × (ℕ → Bool)
  | [], potentials, visited => (potentials, visited)
  | (sep_ix, sep_vars, child) :: rest, potentials, visited =>
      if visited child.rootId then collectL sizes i ks rest potentials visited
      else
        let pv := collect sizes child potentials visited
        let upd := SumProduct.update sizes (pv.1 child.rootId) child.rootKeys
          (pv.1 i) ks (pv.1 sep_ix) sep_vars
        let potentials2 : Potentials :=
          fun j => if j = sep_ix then upd.2 else if j = i then upd.1 else pv.1 j
        collectL sizes i ks rest potentials2 pv.2
termination_by structural cs => cs

end

mutual

/-- Embeds `distribute` (bp.py line 748): pre-order message passing.  Marks
the root visited, then for each unvisited child applies
`distributive_law.update` with this clique as clique 1 and the child as
clique 2, stores the results, and recurses into the child. -/
def distribute (sizes : ℕ → ℕ) : JTree → Potentials → (ℕ → Bool) → Potentials × (ℕ → Bool)
  | .node i ks cs, potentials, visited =>
      distributeL sizes i ks cs potentials (fun j => if j = i then true else visited j)
termination_by structural t => t

/-- The `for neighbor in tree[2:]` loop of `distribute`. -/
def distributeL (sizes : ℕ → ℕ) (i : ℕ) (ks : List ℕ) :
    List (ℕ × List ℕ × JTree) → Potentials → (ℕ → Bool) → Potentials × (ℕ → Bool)
  | [], potentials, visited => (potentials, visited)
  | (sep_ix, sep_vars, child) :: rest, potentials, visited =>
      if visited child.rootId then distributeL sizes i ks rest potentials visited
      else
        let upd := SumProduct.update sizes (potentials i) ks
          (potentials child.rootId) child.rootKeys (potentials sep_ix) sep_vars
        let potentials1 : Potentials :=
          fun j => if j = sep_ix then upd.2 else if j = child.rootId then upd.1 else potentials j
        let pv := distribute sizes child potentials1 visited
        distributeL sizes i ks rest pv.1 pv.2
termination_by structural cs => cs

end

/-- Embeds `hugin` (bp.py line 778): run `collect` with a fresh visited
array, then `distribute` with a fresh visited array, and return the
resulting potential table.  The `distributive_law` argument is
instantiated with the sum-product law `SumProduct`, as in
`bp.sum_product`. -/
def hugin (sizes : ℕ → ℕ) (tree : JTree) (potentials : Potentials) : Potentials :=
  (distribute sizes tree (collect sizes tree potentials (fun _ => false)).1 (fun _ => false)).1

/-- The propagation loop of `JunctionTree.propagate` (bp.py line 1148):
`hugin` applied to each tree of the forest in turn, on a shared potential
table. -/
def huginForest (sizes : ℕ → ℕ) (trees : List JTree) (potentials : Potentials) : Potentials :=
  trees.foldl (fun p t => hugin sizes t p) potentials

/-- A Python value appearing in a heap entry: an int (keys, fill-in counts,
np.int64 weights), a float (`1.0/mass`, `np.prod([])`; modelled as an exact
rational), or a string (the `""` tombstone marker). -/
inductive PyVal : Type where
  | pyInt (n : ℤ) : PyVal
  | pyFloat (q : ℚ) : PyVal
  | pyStr (s : String) : PyVal
deriving DecidableEq, Repr

/-- Python `<` on two values: numeric comparisons are exact across
int/float; comparing a number with a string raises TypeError. -/
def pyLt : PyVal → PyVal → Except PyErr Bool
  | .pyInt a, .pyInt b => .ok (decide (a < b))
  | .pyInt a, .pyFloat b => .ok (decide ((a : ℚ) < b))
  | .pyFloat a, .pyInt b => .ok (decide (a < (b : ℚ)))
  | .pyFloat a, .pyFloat b => .ok (decide (a < b))
  | .pyStr a, .pyStr b => .ok (decide (a < b))
  | _, _ => .error .typeError

/-- Python `==` on two values: mixed number/string compares unequal
without raising. -/
def pyValEq : PyVal → PyVal → Bool
  | .pyInt a, .pyInt b => a == b
  | .pyInt a, .pyFloat b => (a : ℚ) == b
  | .pyFloat a, .pyInt b => a == (b : ℚ)
  | .pyFloat a, .pyFloat b => a == b
  | .pyStr a, .pyStr b => a == b
  | _, _ => false

/-- Python list `<`: find the first index where elements are not `==` and
compare them with `<`; a strict prefix is smaller. -/
def pyListLt : List PyVal → List PyVal → Except PyErr Bool
  | [], [] => .ok false
  | [], _ :: _ => .ok true
  | _ :: _, [] => .ok false
  | x :: xs, y :: ys => if pyValEq x y then pyListLt xs ys else pyLt x y

/-- The mutable heap-entry objects.  Python's `heapq` list holds references
to list objects that `entry_finder` aliases and `update_heap` mutates in
place (`prev[2] = ""`); the store models that object identity, and the
heap itself is a list of store indices. -/
abbrev EntryStore : Type := List (List PyVal)

/-- Entry object behind reference `i`. -/
def entryAt (store : EntryStore) (i : ℕ) : List PyVal :=
  store.getD i []

/-- The `while pos > startpos` loop of CPython `heapq._siftdown`:
`newitem` was read from `heap[pos]`; move parents down while `newitem`
compares less, then write `newitem` at the final position.  Comparisons
can raise TypeError (int key vs `""` tombstone). -/
def heap_siftdown_loop (store : EntryStore) (heap : List ℕ) (startpos pos newitem : ℕ) :
    Except PyErr (List ℕ) :=
  if h : startpos < pos then
    let parentpos := (pos - 1) / 2
    let parent := heap.getD parentpos 0
    match pyListLt (entryAt store newitem) (entryAt store parent) with
    | .error e => .error e
    | .ok true => heap_siftdown_loop store (heap.set pos parent) startpos parentpos newitem
    | .ok false => .ok (heap.set pos newitem)
  else .ok (heap.set pos newitem)
termination_by pos
decreasing_by omega

/-- CPython `heapq._siftdown(heap, startpos, pos)`. -/
def heap_siftdown (store : EntryStore) (heap : List ℕ) (startpos pos : ℕ) :
    Except PyErr (List ℕ) :=
  heap_siftdown_loop store heap startpos pos (heap.getD pos 0)

/-- CPython `heapq.heappush`: append, then sift down from the last slot. -/
def heappush (store : EntryStore) (heap : List ℕ) (item : ℕ) : Except PyErr (List ℕ) :=
  heap_siftdown store (heap ++ [item]) 0 heap.length

/-- The `while childpos < endpos` loop of CPython `heapq._siftup`: bubble
the smaller child up until reaching a leaf, then place `newitem` and call
`_siftdown` from `startpos`. -/
def heap_siftup_loop (store : EntryStore) (heap : List ℕ) (pos newitem startpos : ℕ) :
    Except PyErr (List ℕ) :=
  if h1 : 2 * pos + 1 < heap.length then
    let childpos := 2 * pos + 1
    let rightpos := childpos + 1
    if h2 : rightpos < heap.length then
      match pyListLt (entryAt store (heap.getD childpos 0)) (entryAt store (heap.getD rightpos 0)) with
      | .error e => .error e
      | .ok true => heap_siftup_loop store (heap.set pos (heap.getD childpos 0)) childpos newitem startpos
      | .ok false => heap_siftup_loop store (heap.set pos (heap.getD rightpos 0)) rightpos newitem startpos
    else heap_siftup_loop store (heap.set pos (heap.getD childpos 0)) childpos newitem startpos
  else heap_siftdown_loop store (heap.set pos newitem) startpos pos newitem
termination_by heap.length - pos
decreasing_by
  · simp only [List.length_set]; omega
  · simp only [List.length_set]; omega
  · simp only [List.length_set]; omega

/-- CPython `heapq.heappop`: pop the last element; if the heap is empty
this raises IndexError; otherwise return `heap[0]`, move the last element
to the root and sift up. -/
def heappop (store : EntryStore) (heap : List ℕ) : Except PyErr (ℕ × List ℕ) :=
  match heap.getLast? with
  | none => .error .indexError
  | some lastelt =>
    let rest := heap.dropLast
    match rest with
    | [] => .ok (lastelt, [])
    | r0 :: _ =>
      match heap_siftup_loop store (rest.set 0 lastelt) 0 lastelt 0 with
      | .error e => .error e
      | .ok h2 => .ok (r0, h2)

/-- Python dict lookup on an insertion-ordered association list. -/
def dictGet (d : List (ℕ × ℕ)) (k : ℕ) : Option ℕ :=
  (d.find? (fun p => p.1 = k)).map Prod.snd

/-- Python dict assignment `d[k] = v`: overwrite in place, else append. -/
def dictSet (d : List (ℕ × ℕ)) (k v : ℕ) : List (ℕ × ℕ) :=
  if d.any (fun p => p.1 = k) then d.map (fun p => if p.1 = k then (k, v) else p)
  else d ++ [(k, v)]

/-- Python `del d[k]`. -/
def dictDel (d : List (ℕ × ℕ)) (k : ℕ) : List (ℕ × ℕ) :=
  d.filter (fun p => p.1 ≠ k)

/-- State threaded through the triangulation heap code: the entry store,
the heap (a list of entry references) and the `entry_finder` dict. -/
structure HeapState : Type where
  store : EntryStore
  heap : List ℕ
  entry_finder : List (ℕ × ℕ)
deriving DecidableEq, Repr

/-- Membership of a key in an undirected edge (a `frozenset` pair). -/
def pyPairMem (x : ℕ) (e : ℕ × ℕ) : Bool :=
  x == e.1 || x == e.2

/-- CPython iterates a set of small nonnegative ints in ascending value
order (hash(i) = i); `pySetAsc` models `set(...)` iteration for the key
sets appearing here. -/
def pySetAsc (l : List ℕ) : List ℕ :=
  List.insertionSort (· ≤ ·) l.dedup

/-- Embeds `factors_to_undirected_graph` (bp.py line 122): every pair of
keys co-occurring in a factor becomes one undirected edge; the dict of
frozensets is an insertion-ordered list of unordered pairs. -/
def factors_to_undirected_graph (factors : List (List ℕ)) : List (ℕ × ℕ) :=
  factors.foldl
    (fun es factor =>
      factor.foldl
        (fun es v1 =>
          ((pySetAsc factor).filter (fun v2 => v2 ≠ v1)).foldl
            (fun es v2 =>
              if es.any (fun e => (e.1 == v1 && e.2 == v2) || (e.1 == v2 && e.2 == v1)) then es
              else es ++ [(v1, v2)])
            es)
        es)
    []

/-- Tombstone the previous entry of `var` after a fresh one was pushed:
`prev = entry_finder.get(var, None); if prev: prev[2] = ""` mutates the
shared entry object inside the heap (bp.py line 330). -/
def tombstone_previous (store : EntryStore) (finder : List (ℕ × ℕ)) (var : ℕ) : EntryStore :=
  match dictGet finder var with
  | some prev => store.set prev ((entryAt store prev).set 2 (.pyStr ""))
  | none => store

/-- Body of the `for var in rem_vars` loop of `update_heap` (bp.py line
312).  The neighbor comprehension evaluates `(set(edge) - set(var)).pop()`
for each edge that contains `var` with both endpoints remaining; with the
data model's integer keys, `set(var)` on the first such edge raises
`TypeError: 'int' object is not iterable`.  When no edge passes the
filter, `rem_neighbors` is empty, no fill-in is counted, and
`np.prod([])` is the float `1.0`, so the cluster weight is the float
`var_sizes[var] * 1.0`.  The fresh entry `[num_new_edges, weight, var]`
is pushed, then the previous entry for `var` (if any) is tombstoned in
place (`prev[2] = ""`) and the finder is repointed. -/
def update_heap_step (rem_vars : List ℕ) (edges : List (ℕ × ℕ)) (var_sizes : ℕ → ℕ)
    (st : HeapState) (var : ℕ) : Except PyErr HeapState :=
  let passing := edges.filter
    (fun e => pyPairMem var e && (rem_vars.contains e.1 && rem_vars.contains e.2))
  if passing.isEmpty then
    let rem_neighbors : List ℕ := []
    let num_new_edges : ℕ := 0
    let weight : ℚ := (var_sizes var : ℚ) * ((rem_neighbors.map var_sizes).map (fun n => (n : ℚ))).prod
    let entry : List PyVal := [.pyInt num_new_edges, .pyFloat weight, .pyInt var]
    let eid := st.store.length
    let store1 := st.store ++ [entry]
    match heappush store1 st.heap eid with
    | .error e => .error e
    | .ok heap1 =>
      .ok ⟨tombstone_previous store1 st.entry_finder var, heap1, dictSet st.entry_finder var eid⟩
  else .error .typeError

/-- Embeds `update_heap` (bp.py line 287): push a fresh scored entry for
EVERY variable in `rem_vars` (tombstoning each variable's previous
entry).  `rem_vars` is carried whole because each step's neighbor filter
consults the full remaining list. -/
def update_heap (rem_vars : List ℕ) (edges : List (ℕ × ℕ)) (var_sizes : ℕ → ℕ)
    (st : HeapState) : Except PyErr HeapState :=
  go rem_vars st
where
  /-- Sequential loop over `rem_vars`. -/
  go : List ℕ → HeapState → Except PyErr HeapState
    | [], st => .ok st
    | v :: vs, st =>
      match update_heap_step rem_vars edges var_sizes st v with
      | .error e => .error e
      | .ok st' => go vs st'

/-- Embeds `initialize_triangulation_heap` (bp.py line 228): build the
initial heap by scoring every key of the size map. -/
def init_triangulation_heap (var_keys : List ℕ) (edges : List (ℕ × ℕ))
    (var_sizes : ℕ → ℕ) : Except PyErr HeapState :=
  update_heap var_keys edges var_sizes ⟨[], [], []⟩

/-- The `while entry[2] == ""` pop loop of `remove_next` (bp.py line 366):
pop until a non-tombstoned entry appears; an empty heap raises
IndexError.  The fuel argument only bounds the recursion; one element is
popped per round, so any fuel of at least `heap.length` is exact, and the
fuel-exhaustion branch (unreachable for such fuel) reports the IndexError
an empty heap would produce. -/
def remove_next_pop (store : EntryStore) : ℕ → List ℕ → Except PyErr (List PyVal × List ℕ)
  | 0, _ => .error .indexError
  | fuel + 1, heap =>
    match heappop store heap with
    | .error e => .error e
    | .ok (eid, heap') =>
      let entry := entryAt store eid
      if entry.getD 2 (.pyInt 0) == .pyStr "" then remove_next_pop store fuel heap'
      else .ok (entry, heap')

/-- The integer key stored in field 2 of a (non-tombstoned) heap entry. -/
def entryVar (entry : List PyVal) : ℕ :=
  match entry.getD 2 (.pyInt 0) with
  | .pyInt n => n.toNat
  | _ => 0

/-- Embeds `remove_next` (bp.py line 339): pop the minimum live entry,
delete it from the finder, remove its variable from the remaining list
(Python `list.remove` raises ValueError if absent), then re-score ALL
still-remaining variables via `update_heap`. -/
def remove_next (st : HeapState) (remaining_vars : List ℕ) (var_sizes : ℕ → ℕ)
    (edges : List (ℕ × ℕ)) : Except PyErr (List PyVal × HeapState × List ℕ) :=
  match remove_next_pop st.store (st.heap.length + 1) st.heap with
  | .error e => .error e
  | .ok (entry, heap') =>
    let var := entryVar entry
    match dictGet st.entry_finder var with
    | none => .error .keyError
    | some _ =>
      let finder' := dictDel st.entry_finder var
      if remaining_vars.contains var then
        let remaining' := remaining_vars.erase var
        match update_heap remaining' edges var_sizes ⟨st.store, heap', finder'⟩ with
        | .error e => .error e
        | .ok st'' => .ok (entry, st'', remaining')
      else .error .valueError

/-- One iteration body plus loop of `find_triangulation` (bp.py line 185).
After `remove_next` pops `var`, the cluster comprehension evaluates
`(set(edge) - set(var)).pop()` over the edges with exactly one remaining
endpoint; with integer keys the first such edge raises TypeError, and
otherwise the induced cluster is `[] + [var]` and no fill-in edge is
added.  Fuel bounds the loop; each successful round removes exactly one
variable, so fuel `remaining.length` is exact and the exhaustion branch
is unreachable. -/
def find_triangulation_loop (var_sizes : ℕ → ℕ) :
    ℕ → HeapState → List ℕ → List (ℕ × ℕ) → List (ℕ × ℕ) → List (List ℕ) →
    Except PyErr (List (ℕ × ℕ) × List (List ℕ))
  | 0, _, remaining, _, tri, induced_clusters =>
    if remaining.isEmpty then .ok (tri, induced_clusters) else .error .valueError
  | fuel + 1, st, remaining, edges, tri, induced_clusters =>
    if remaining.isEmpty then .ok (tri, induced_clusters)
    else
      match remove_next st remaining var_sizes edges with
      | .error e => .error e
      | .ok (entry, st', remaining') =>
        let var := entryVar entry
        let passing := edges.filter
          (fun e => pyPairMem var e &&
            ((if remaining'.contains e.1 then 1 else 0) +
              (if remaining'.contains e.2 then 1 else 0) == 1))
        if passing.isEmpty then
          let rem_neighbors : List ℕ := []
          find_triangulation_loop var_sizes fuel st' remaining' edges tri
            (induced_clusters ++ [rem_neighbors ++ [var]])
        else .error .typeError

/-- Embeds `find_triangulation` (bp.py line 147): derive the undirected
graph, build the heap over all keys of the size map, then eliminate
variables one at a time. -/
def find_triangulation (factors : List (List ℕ)) (var_sizes_keys : List ℕ)
    (var_sizes : ℕ → ℕ) : Except PyErr (List (ℕ × ℕ) × List (List ℕ)) :=
  let edges := factors_to_undirected_graph factors
  match init_triangulation_heap var_sizes_keys edges var_sizes with
  | .error e => .error e
  | .ok st =>
    find_triangulation_loop var_sizes var_sizes_keys.length st var_sizes_keys edges [] []

/-- Python frozenset `issubset` on deduplicated key lists. -/
def py_subsetL (s1 s2 : List ℕ) : Bool :=
  s1.all (fun x => s2.contains x)

/-- Python frozenset strict `<` (proper subset). -/
def py_properSubsetL (s1 s2 : List ℕ) : Bool :=
  py_subsetL s1 s2 && !py_subsetL s2 s1

/-- Embeds `identify_cliques` (bp.py line 389): turn each induced cluster
into a frozenset, keep exactly those that are not a STRICT subset
(`s1 < s2`) of some cluster, and return each kept set as a list
(`list(s1)`, modelled with CPython's ascending small-int set order). -/
def identify_cliques (induced_clusters : List (List ℕ)) : List (List ℕ) :=
  let sets := induced_clusters.map pySetAsc
  sets.filter (fun s1 => !(sets.any (fun s2 => py_properSubsetL s1 s2)))

mutual

/-- Structural equality of trees: Python `==`/`!=` on the nested lists. -/
def jtreeBeq : JTree → JTree → Bool
  | .node i ks cs, .node j ls ds => i == j && ks == ls && jtreeBeqL cs ds

/-- Structural equality of child lists. -/
def jtreeBeqL : List (ℕ × List ℕ × JTree) → List (ℕ × List ℕ × JTree) → Bool
  | [], [] => true
  | (s, sks, c) :: r, (t, tks, d) :: q => s == t && sks == tks && jtreeBeq c d && jtreeBeqL r q
  | _, _ => false

end

mutual

/-- Models the use of `find_subtree` (bp.py line 565) in
`construct_junction_tree`: the Python function returns a non-empty list
exactly when `clique_ix` occurs as a clique id in the tree, and the
caller only tests `find_subtree(tree, ix) != []`. -/
def find_subtree_found : JTree → ℕ → Bool
  | .node i _ cs, clique_ix => i == clique_ix || find_subtree_foundL cs clique_ix

/-- Search of a child list for a clique id. -/
def find_subtree_foundL : List (ℕ × List ℕ × JTree) → ℕ → Bool
  | [], _ => false
  | (_, _, c) :: rest, clique_ix => find_subtree_found c clique_ix || find_subtree_foundL rest clique_ix

end

mutual

/-- Embeds `insert_sepset` (bp.py line 556): rebuild the tree, adding
`sepset_group` as a new FIRST child of the clique `clique_ix` (Python's
`sum(mapped_children, start)` puts the start list before the mapped
children). -/
def insert_sepset : JTree → ℕ → (ℕ × List ℕ × JTree) → JTree
  | .node i ks cs, clique_ix, sepset_group =>
      .node i ks ((if i = clique_ix then [sepset_group] else []) ++
        insert_sepsetL cs clique_ix sepset_group)

/-- Rebuild of a child list by `insert_sepset`. -/
def insert_sepsetL : List (ℕ × List ℕ × JTree) → ℕ → (ℕ × List ℕ × JTree) →
    List (ℕ × List ℕ × JTree)
  | [], _, _ => []
  | (s, sks, c) :: rest, clique_ix, sepset_group =>
      (s, sks, insert_sepset c clique_ix sepset_group) ::
        insert_sepsetL rest clique_ix sepset_group

end

mutual

/-- Embeds `change_root` (bp.py line 591): re-root `tree` at `clique_ix`,
carrying the already re-rooted part as the extra child `(sep_id,
sep_keys, subtree)` built during recursion (`child`/`sep` in the
source); `none` models the Python empty-list result when `clique_ix` is
not present.  The Python source concatenates the candidate results from
all children; with the unique clique ids of a junction tree at most one
candidate is non-empty, which the first-hit search models. -/
def change_root : JTree → ℕ → Option (ℕ × List ℕ × JTree) → Option JTree
  | .node i ks cs, clique_ix, extra =>
      if i = clique_ix then some (.node i ks (cs ++ extra.toList))
      else change_rootL i ks [] cs clique_ix extra

/-- The `for c_ix, child_sepset in enumerate(tree[2:])` loop of
`change_root`: `done` holds the already-scanned children in reverse, so
the node passed down as the new child is the current node minus the
child being descended into, plus the incoming extra child. -/
def change_rootL (i : ℕ) (ks : List ℕ) (done : List (ℕ × List ℕ × JTree)) :
    List (ℕ × List ℕ × JTree) → ℕ → Option (ℕ × List ℕ × JTree) → Option JTree
  | [], _, _ => none
  | (s, sks, c) :: rest, clique_ix, extra =>
      let removed : JTree := .node i ks ((done.reverse ++ rest) ++ extra.toList)
      match change_root c clique_ix (some (s, sks, removed)) with
      | some t' => some t'
      | none => change_rootL i ks ((s, sks, c) :: done) rest clique_ix extra

end

/-- Embeds `merge_trees` (bp.py line 520): re-root tree 2 at clique 2 and
insert it, behind the new separator, as a child of clique 1 in tree 1.
`none` (the source would build a malformed tree) cannot occur when
clique 2 is in tree 2. -/
def merge_trees (tree1 : JTree) (clique1_ix : ℕ) (tree2 : JTree) (clique2_ix : ℕ)
    (sepset_ix : ℕ) (sepset : List ℕ) : Option JTree :=
  match change_root tree2 clique2_ix none with
  | some t2r => some (insert_sepset tree1 clique1_ix (sepset_ix, sepset, t2r))
  | none => none

/-- Embeds `build_sepset_heap` (bp.py line 493): push an entry
`[1.0/mass, weight1 + weight2, i]` for each candidate sepset; the float
`1.0/mass` and the `np.int64` weights are modelled exactly. -/
def build_sepset_heap (sepsets : List (List ℕ × ℕ × ℕ)) (cliques : List (List ℕ))
    (var_sizes : ℕ → ℕ) : Except PyErr (EntryStore × List ℕ) :=
  go sepsets 0 [] []
where
  /-- Sequential pushes; `i` is the sepset index stored in the entry. -/
  go : List (List ℕ × ℕ × ℕ) → ℕ → EntryStore → List ℕ → Except PyErr (EntryStore × List ℕ)
    | [], _, store, heap => .ok (store, heap)
    | (ss, cliq1_ix, cliq2_ix) :: rest, i, store, heap =>
      let mass : ℕ := (pySetAsc ss).length
      let weight1 : ℕ := ((cliques.getD cliq1_ix []).map var_sizes).prod
      let weight2 : ℕ := ((cliques.getD cliq2_ix []).map var_sizes).prod
      let entry : List PyVal := [.pyFloat (1 / (mass : ℚ)), .pyInt ((weight1 : ℤ) + weight2), .pyInt i]
      let eid := store.length
      match heappush (store ++ [entry]) heap eid with
      | .error e => .error e
      | .ok heap' => go rest (i + 1) (store ++ [entry]) heap'

/-- Candidate sepsets of `construct_junction_tree` (bp.py line 450): every
ordered pair `i < j` of cliques with a non-empty key intersection, the
intersection taken in CPython set order. -/
def candidate_sepsets (cliques : List (List ℕ)) : List (List ℕ × ℕ × ℕ) :=
  (cliques.enum.flatMap
    (fun p =>
      (cliques.drop (p.1 + 1)).enum.map
        (fun q => (pySetAsc (p.2.filter (fun k => q.2.contains k)), p.1, p.1 + q.1 + 1)))).filter
    (fun s => !s.1.isEmpty)

/-- The `while num_selected < len(cliques) - 1` loop of
`construct_junction_tree` (bp.py line 460).  Every iteration pops one
entry (IndexError on an empty heap — reached whenever the clique
intersection graph is disconnected, because fewer than
`len(cliques) - 1` merges exist); a popped sepset whose two cliques
already share a tree is discarded.  Fuel bounds the loop: each round
pops one entry, so fuel `heap.length + 1` is exact and the exhaustion
branch (unreachable for such fuel) reports the IndexError the next pop
of the emptied heap would raise.  The `none` find cases model the
TypeError Python would hit building a tree out of `None`; they cannot
occur while every clique id is in the forest. -/
def construct_junction_tree_loop (sepsets : List (List ℕ × ℕ × ℕ)) (n : ℕ)
    (store : EntryStore) :
    ℕ → List ℕ → List JTree → ℕ → Except PyErr (List JTree)
  | 0, _, _, _ => .error .indexError
  | fuel + 1, heap, forest, num_selected =>
    if num_selected < n - 1 then
      match heappop store heap with
      | .error e => .error e
      | .ok (eid, heap') =>
        let ss_id := entryVar (entryAt store eid)
        let (sepset, cliq1_ix, cliq2_ix) := sepsets.getD ss_id ([], 0, 0)
        let tree1 := forest.find? (fun t => find_subtree_found t cliq1_ix)
        let tree2 := forest.find? (fun t => find_subtree_found t cliq2_ix)
        let same : Bool := match tree1, tree2 with
          | none, none => true
          | some t1, some t2 => jtreeBeq t1 t2
          | _, _ => false
        if same then construct_junction_tree_loop sepsets n store fuel heap' forest num_selected
        else
          match tree1, tree2 with
          | some t1, some t2 =>
            match merge_trees t1 cliq1_ix t2 cliq2_ix (n + num_selected) sepset with
            | some new_tree =>
              let forest' := (((forest ++ [new_tree]).eraseP (fun t => jtreeBeq t t1)).eraseP
                (fun t => jtreeBeq t t2))
              construct_junction_tree_loop sepsets n store fuel heap' forest' (num_selected + 1)
            | none => .error .typeError
          | _, _ => .error .typeError
    else .ok forest

/-- Embeds `construct_junction_tree` (bp.py line 429): start with one
single-clique tree per clique, build the candidate-sepset heap, and run
the Kruskal-style merge loop until `len(cliques) - 1` separators have
been inserted. -/
def construct_junction_tree (cliques : List (List ℕ)) (var_sizes : ℕ → ℕ) :
    Except PyErr (List JTree) :=
  let forest : List JTree := cliques.enum.map (fun p => .node p.1 p.2 [])
  let sepsets := candidate_sepsets cliques
  match build_sepset_heap sepsets cliques var_sizes with
  | .error e => .error e
  | .ok (store, heap) =>
    construct_junction_tree_loop sepsets cliques.length store (heap.length + 1) heap forest 0

/-- Number of parameters of `bp.hugin` (bp.py line 778):
`hugin(tree, var_labels, potentials, distributive_law)`. -/
def hugin_param_count : ℕ := 4

/-- Number of positional arguments `JunctionTree.propagate`
(junction_tree.py line 368) passes to `bp.hugin`: `(tree,
self.get_label_order(), new_potentials, bp.sum_product,
shrink_mapping)`. -/
def propagate_hugin_arg_count : ℕ := 5

/-- A Python call of `bp.hugin` with `nargs` positional arguments: calling
a function whose signature has `hugin_param_count` parameters with a
different number of positional arguments raises TypeError before the
body runs. -/
def call_bp_hugin (sizes : ℕ → ℕ) (nargs : ℕ) (tree : JTree) (potentials : Potentials) :
    Except PyErr Potentials :=
  if nargs = hugin_param_count then .ok (hugin sizes tree potentials) else .error .typeError

/-- Embeds `JunctionTree.observe` (junction_tree.py line 261) up to its
first observable effect.  The likelihood dict and shrink mapping are
computed without error; then, for the first observed key, `find_key`
evaluates `self.labels[key_label]` (KeyError on an unknown label), and
the clique search evaluates the attribute `bp.get_clique_of_key` —
which does not exist (bp.py defines `get_clique_of_var`), so a
non-empty tree loop raises AttributeError, and an empty forest leaves
`clique_keys` unbound and raises NameError just below. -/
def jt_observe (labels : List ℕ) (struct : List JTree) (potentials : Potentials)
    (data : List (ℕ × ℕ)) : Except PyErr Potentials :=
  match data with
  | [] => .ok potentials
  | (lbl, _) :: _ =>
    if labels.contains lbl then
      match struct with
      | [] => .error .nameError
      | _ :: _ => .error .attributeError
    else .error .keyError

/-- The `for i, tree in enumerate(self.get_struct())` loop of
`JunctionTree.propagate` (junction_tree.py line 367): each tree is
passed to `bp.hugin` with `propagate_hugin_arg_count` positional
arguments. -/
def jt_propagate_loop (sizes : ℕ → ℕ) : List JTree → Potentials → Except PyErr Potentials
  | [], potentials => .ok potentials
  | t :: rest, potentials =>
    match call_bp_hugin sizes propagate_hugin_arg_count t potentials with
    | .error e => .error e
    | .ok potentials' => jt_propagate_loop sizes rest potentials'

/-- Embeds `JunctionTree.propagate` (junction_tree.py line 342).  The
`in_place` copy choice does not change the computed value and is
omitted; `if data:` is false for `None` and for an empty dict, in which
case `observe` is skipped and the hugin loop runs directly. -/
def jt_propagate (sizes : ℕ → ℕ) (labels : List ℕ) (struct : List JTree)
    (potentials : Potentials) (data : Option (List (ℕ × ℕ))) : Except PyErr Potentials :=
  match data with
  | some ((kv :: rest)) =>
    match jt_observe labels struct potentials (kv :: rest) with
    | .error e => .error e
    | .ok potentials' => jt_propagate_loop sizes struct potentials'
  | _ => jt_propagate_loop sizes struct potentials

/-- Output-subscripts argument of a sublist-form `np.einsum` call: either
a list of axis labels, or (erroneously) a bare int. -/
inductive EinsumOut : Type where
  | subsList (l : List ℕ) : EinsumOut
  | subsInt (n : ℕ) : EinsumOut

/-- A one-operand sublist-form `np.einsum(arr, arr_keys, out)`: with a
subscript list, sum the axes not in the output; with a bare int, numpy's
parser iterates the output-subscripts argument and raises
`TypeError: 'int' object is not iterable`. -/
def np_einsum_1op (sizes : ℕ → ℕ) (arr : Pot) (arr_keys : List ℕ) (out : EinsumOut) :
    Except PyErr Pot :=
  match out with
  | .subsList l => .ok (sumOver sizes (arr_keys.filter (fun k => !l.contains k)) arr)
  | .subsInt _ => .error .typeError

/-- Embeds `compute_marginal` (bp.py line 843):
`np.einsum(arr, _vars, _vars_ss)`. -/
def compute_marginal (sizes : ℕ → ℕ) (arr : Pot) (arr_vars : List ℕ) (arr_vars_ss : EinsumOut) :
    Except PyErr Pot :=
  np_einsum_1op sizes arr arr_vars arr_vars_ss

/-- Python dict lookup for `clique_keys` / `keys_to_cliques` tables. -/
def dictGetL (d : List (ℕ × List ℕ)) (k : ℕ) : Option (List ℕ) :=
  (d.find? (fun p => p.1 = k)).map Prod.snd

/-- Embeds `JunctionTree.marginalize` (junction_tree.py line 378).  More
than one key raises NotImplementedError; an unknown key raises
ValueError; `self.keys_to_cliques[key_ix][0]` picks the first clique
containing the key.  The marginal is then requested through
`bp.compute_marginal(potentials[clique_ix], mapped_keys,
m_keys[key_ix])`, whose LAST argument is the bare int position of the
key — modelled by `EinsumOut.subsInt`; in the key-level
representation the clique axes are `clique_keys` themselves.  The
`except ValueError` around it returns the scalar `0.0`; any other
exception (numpy's TypeError for the int output-subscripts, KeyError
from `m_keys[key_ix]`) propagates.  `Z` normalisation follows the
source. -/
def jt_marginalize (sizes : ℕ → ℕ) (key_sizes_keys labels : List ℕ)
    (keys_to_cliques clique_keys : List (ℕ × List ℕ)) (potentials : Potentials)
    (key_labels : List ℕ) (normalize : Bool) : Except PyErr Pot :=
  if key_labels.length > 1 then .error .notImplementedError
  else if (key_labels.all (fun lbl => key_sizes_keys.contains lbl)) = false then .error .valueError
  else
    match key_labels with
    | [] => .error .indexError
    | lbl :: _ =>
      let key_ix := labels.indexOf lbl
      match dictGetL keys_to_cliques key_ix with
      | none => .error .keyError
      | some [] => .error .indexError
      | some (clique_ix :: _) =>
        let cl_keys := (dictGetL clique_keys clique_ix).getD []
        if cl_keys.contains key_ix then
          match compute_marginal sizes (potentials clique_ix) cl_keys
              (.subsInt (cl_keys.indexOf key_ix)) with
          | .error .valueError => .ok (fun _ => 0)
          | .error e => .error e
          | .ok value =>
            let z : ℚ := if normalize then sumOver sizes [key_ix] value (fun _ => 0) else 1
            let z' : ℚ := if z = 0 then 1 else z
            .ok (fun a => value a / z')
        else .error .keyError

/-- Modelled from the spec (claim C3's reading of `absorb`): "elementwise-
multiply `clique_potential` by `new_separator / old_separator` broadcast
onto `sep_keys`; where `old_separator` is exactly zero the ratio is
defined as producing an all-zero result".  Comparison definition for the
refinement check against `SumProduct.absorb`. -/
def spec_absorb (clique_pot : Pot) (sep_pot new_sep_pot : Pot) : Pot :=
  fun a => (if sep_pot a = 0 then 0 else new_sep_pot a / sep_pot a) * clique_pot a

/-- Modelled from the spec (claim C8's filter): "retains only those
clusters that are not a subset of any other cluster".  Comparison
definition: a cluster is dropped when it is a (possibly equal) subset of
the cluster at some OTHER position. -/
def spec_identify_cliques (induced_clusters : List (List ℕ)) : List (List ℕ) :=
  let sets := induced_clusters.map pySetAsc
  (sets.enum.filter
    (fun p => !(sets.enum.any (fun q => q.1 ≠ p.1 && py_subsetL p.2 q.2)))).map Prod.snd

/-- Modelled from the spec (claim C7): "the keys whose neighbor set
changed (`v`'s former neighbors)" — the keys adjacent to `v` in the
graph that are still remaining. -/
def former_neighbors (graph_edges : List (ℕ × ℕ)) (remaining : List ℕ) (v : ℕ) : List ℕ :=
  ((graph_edges.filter (fun e => pyPairMem v e)).map
    (fun e => if e.1 = v then e.2 else e.1)).filter (fun w => remaining.contains w)

/-- An entry reference that was allocated after the store had length
`oldStoreLen` — i.e. an entry freshly pushed by the call under
scrutiny. -/
def entry_is_fresh (oldStoreLen : ℕ) (r : Option ℕ) : Bool :=
  match r with
  | some eid => decide (oldStoreLen ≤ eid)
  | none => false

/-- Every key has domain size 2 in the small examples. -/
def sizes2 : ℕ → ℕ := fun _ => 2

/-- Two-clique tree `[0, [0], (1, [0], [2, [0, 1]])]`: clique 0 over key
0, separator 1 over key 0, clique 2 over keys 0,1. -/
def treeA : JTree := .node 0 [0] [(1, [0], .node 2 [0, 1] [])]

/-- Potential table for `treeA` whose clique-2 tensor has a zero slice:
`[[0, 0], [1, 1]]` over keys 0,1; cliques 0 and separator 1 are all
ones. -/
def potsA : Potentials :=
  fun j => if j = 2 then (fun a => if a 0 = 0 then 0 else 1) else fun _ => 1

/-- All-ones potential table. -/
def potsOnes : Potentials := fun _ => fun _ => 1

/-- Two-clique tree `[0, [0], (1, [0], [2, [0]])]` with all three nodes
over the single key 0. -/
def treeB : JTree := .node 0 [0] [(1, [0], .node 2 [0] [])]

/-- The vector `[0, 1]` over key 0. -/
def pot01 : Pot := fun a => if a 0 = 0 then 0 else 1

/-- Table assigning `[0, 1]` to every node of `treeB`: a calibrated table
(every projection onto key 0 is the identity) containing a zero entry. -/
def potsB : Potentials := fun _ => pot01

/-- `phi12 = [[0.4, 0.8], [0.6, 0.2]]` over keys 0 (V1) and 1 (V2). -/
def phi12 : Pot := fun a =>
  if a 0 = 0 then (if a 1 = 0 then 2/5 else 4/5) else (if a 1 = 0 then 3/5 else 1/5)

/-- `phi2 = [1, 1]` over key 1 (V2). -/
def phi2 : Pot := fun _ => 1

/-- `phi23 = [[0.03, 0.07], [0.45, 0.45]]` over keys 1 (V2) and 2 (V3). -/
def phi23 : Pot := fun a =>
  if a 1 = 0 then (if a 2 = 0 then 3/100 else 7/100) else (if a 2 = 0 then 9/20 else 9/20)

/-- The golden calibrated `phi12 = [[0.04, 0.72], [0.06, 0.18]]`. -/
def phi12_golden : Pot := fun a =>
  if a 0 = 0 then (if a 1 = 0 then 1/25 else 18/25) else (if a 1 = 0 then 3/50 else 9/50)

/-- The two-message pass of the spec's golden scenario: project `phi12`
onto V2, absorb into `phi23` with `phi2` as old separator; project the
updated `phi23` onto V2, absorb back into `phi12`. -/
def phi12_calibrated : Pot :=
  let phi2n := SumProduct.project sizes2 phi12 [0, 1] [1]
  let phi23n := SumProduct.absorb sizes2 phi23 [1, 2] phi2 phi2n [1]
  let phi2nn := SumProduct.project sizes2 phi23n [1, 2] [1]
  SumProduct.absorb sizes2 phi12 [0, 1] phi2n phi2nn [1]

/-- Key sizes for the triangulation example: key 0 has size 2, key 1 has
size 3. -/
def sizesC7 : ℕ → ℕ := fun k => if k = 0 then 2 else 3

/-- The heap state `initialize_triangulation_heap` produces for keys 0,1
with no edges and sizes `sizesC7`: one live entry per key, no
tombstones. -/
def stC7 : HeapState :=
  ⟨[[.pyInt 0, .pyFloat 2, .pyInt 0], [.pyInt 0, .pyFloat 3, .pyInt 1]], [0, 1], [(0, 0), (1, 1)]⟩

/-- The heap entry `[0, 2.0, 0]` (key 0, the cheaper one) that
`remove_next` pops first from `stC7`. -/
def entryC7 : List PyVal := [.pyInt 0, .pyFloat 2, .pyInt 0]

/-- The heap state after one `remove_next` on `stC7`: key 0's entry is
gone from the finder, and key 1 — although its neighbor set did not
change (the graph has no edges at all) — was re-scored: a fresh entry
(reference 2) was pushed for it and its previous entry (reference 1)
tombstoned in place. -/
def stC7' : HeapState :=
  ⟨[[.pyInt 0, .pyFloat 2, .pyInt 0], [.pyInt 0, .pyFloat 3, .pyStr ""],
    [.pyInt 0, .pyFloat 3, .pyInt 1]], [1, 2], [(1, 2)]⟩

/-- Assignment sending every key to 0. -/
def asg0 : Assignment := fun _ => 0

/-- Assignment sending every key to 1. -/
def asg1 : Assignment := fun _ => 1

/-- Assignment with key 0 at `i` and key 1 at `j` (all others 0). -/
def asg2 (i j : ℕ) : Assignment := fun k => if k = 0 then i else if k = 1 then j else 0

/-- Clique potential `[5, 7]` over key 0. -/
def cl3 : Pot := fun a => if a 0 = 0 then 5 else 7

/-- Old separator `[1, 0]` over key 0: zero at index 1 only. -/
def old3 : Pot := fun a => if a 0 = 0 then 1 else 0

/-- New separator `[3, 0]` over key 0. -/
def new3 : Pot := fun a => if a 0 = 0 then 3 else 0

theorem sumOver_congr (sizes : ℕ → ℕ) (es : List ℕ) {p q : Pot} (h : ∀ a, p a = q a) :
    ∀ a, sumOver sizes es p a = sumOver sizes es q a := by
  induction es with
  | nil => simpa [sumOver] using h
  | cons k ks ih =>
    intro a
    simp only [sumOver]
    exact congrArg List.sum (List.map_congr_left (fun v _ => ih _))

theorem sumOver_pos (sizes : ℕ → ℕ) (es : List ℕ) (p : Pot)
    (hsz : ∀ k, 1 ≤ sizes k) (hp : ∀ a, 0 < p a) :
    ∀ a, 0 < sumOver sizes es p a := by
  induction es with
  | nil => simpa [sumOver] using hp
  | cons k ks ih =>
    intro a
    simp only [sumOver]
    apply List.sum_pos
    · intro x hx
      obtain ⟨v, _, rfl⟩ := List.mem_map.mp hx
      exact ih _
    · have := hsz k
      simp only [ne_eq, List.map_eq_nil_iff, List.range_eq_nil]
      omega

theorem sumOver_setVar_mem (sizes : ℕ → ℕ) (es : List ℕ) (p : Pot) (k : ℕ) (hk : k ∈ es) :
    ∀ a v, sumOver sizes es p (setVar a k v) = sumOver sizes es p a := by
  induction es with
  | nil => cases hk
  | cons e es ih =>
    intro a v
    rcases List.mem_cons.mp hk with rfl | hk'
    · simp only [sumOver]
      apply congrArg List.sum
      apply List.map_congr_left
      intro w _
      apply congrArg
      funext x
      simp [setVar]
      split <;> rfl
    · simp only [sumOver]
      apply congrArg List.sum
      apply List.map_congr_left
      intro w _
      by_cases hek : e = k
      · subst hek
        apply congrArg
        funext x
        simp [setVar]
        split <;> rfl
      · rw [show setVar (setVar a k v) e w = setVar (setVar a e w) k v by
          funext x
          simp only [setVar]
          split <;> split <;> simp_all]
        exact ih hk' _ _

theorem sumOver_dep (sizes : ℕ → ℕ) (ks : List ℕ) (p : Pot) (hp : DependsOnlyOn ks p) :
    ∀ es a b, (∀ k ∈ ks, k ∈ es ∨ a k = b k) →
      sumOver sizes es p a = sumOver sizes es p b := by
  intro es
  induction es with
  | nil =>
    intro a b h
    exact hp a b (fun k hk => (h k hk).resolve_left (fun hx => (List.not_mem_nil k) hx))
  | cons e es ih =>
    intro a b h
    simp only [sumOver]
    apply congrArg List.sum
    apply List.map_congr_left
    intro v _
    apply ih
    intro k hk
    rcases h k hk with hke | hab
    · rcases List.mem_cons.mp hke with rfl | hk' 
      · right; simp [setVar]
      · left; exact hk'
    · by_cases hke : k = e
      · right; subst hke; simp [setVar]
      · right; simp [setVar, hke, hab]

theorem sumOver_mul_left (sizes : ℕ → ℕ) (es : List ℕ) (r p : Pot)
    (hr : ∀ k ∈ es, ∀ a v, r (setVar a k v) = r a) :
    ∀ a, sumOver sizes es (fun b => r b * p b) a = r a * sumOver sizes es p a := by
  induction es with
  | nil => intro a; rfl
  | cons e es ih =>
    intro a
    simp only [sumOver]
    have step : ∀ v, sumOver sizes es (fun b => r b * p b) (setVar a e v) =
        r a * sumOver sizes es p (setVar a e v) := by
      intro v
      rw [ih (fun k hk a' v' => hr k (List.mem_cons_of_mem e hk) a' v'),
        hr e (List.mem_cons_self e es) a v]
    rw [List.map_congr_left (fun v _ => step v)]
    exact List.sum_map_mul_left _ _ _

theorem dep_setVar_invariant (ks : List ℕ) (r : Pot) (hr : DependsOnlyOn ks r)
    (k : ℕ) (hk : k ∉ ks) : ∀ a v, r (setVar a k v) = r a := by
  intro a v
  apply hr
  intro k' hk'
  simp only [setVar]
  split
  · rename_i hkk
    subst hkk
    exact absurd hk' hk
  · rfl

theorem dep_mono (ks ks' : List ℕ) (p : Pot) (hp : DependsOnlyOn ks p)
    (hs : ∀ k ∈ ks, k ∈ ks') : DependsOnlyOn ks' p := by
  intro a b hab
  exact hp a b (fun k hk => hab k (hs k hk))

theorem dep_mul (ks : List ℕ) (p q : Pot) (hp : DependsOnlyOn ks p) (hq : DependsOnlyOn ks q) :
    DependsOnlyOn ks (fun a => p a * q a) := by
  intro a b hab
  simp only [hp a b hab, hq a b hab]

theorem dep_div (ks : List ℕ) (p q : Pot) (hp : DependsOnlyOn ks p) (hq : DependsOnlyOn ks q) :
    DependsOnlyOn ks (fun a => p a / q a) := by
  intro a b hab
  simp only [hp a b hab, hq a b hab]

theorem project_congr (sizes : ℕ → ℕ) {p q : Pot} (ks ss : List ℕ) (h : ∀ a, p a = q a) :
    ∀ a, SumProduct.project sizes p ks ss a = SumProduct.project sizes q ks ss a :=
  sumOver_congr sizes _ h

theorem project_pos (sizes : ℕ → ℕ) (p : Pot) (ks ss : List ℕ)
    (hsz : ∀ k, 1 ≤ sizes k) (hp : ∀ a, 0 < p a) :
    ∀ a, 0 < SumProduct.project sizes p ks ss a :=
  sumOver_pos sizes _ p hsz hp

theorem project_dep (sizes : ℕ → ℕ) (p : Pot) (ks ss : List ℕ) (hp : DependsOnlyOn ks p) :
    DependsOnlyOn ss (SumProduct.project sizes p ks ss) := by
  intro a b hab
  apply sumOver_dep sizes ks p hp
  intro k hk
  by_cases hks : ss.contains k
  · right
    exact hab k (by simpa using hks)
  · left
    simp only [List.mem_filter, hk, true_and]
    simpa using hks

theorem absorb_of_no_zero (sizes : ℕ → ℕ) (c : Pot) (cv : List ℕ) (old new : Pot)
    (sv : List ℕ) (h : ∀ a, old a ≠ 0) :
    SumProduct.absorb sizes c cv old new sv = fun a => (new a / old a) * c a := by
  unfold SumProduct.absorb
  rw [if_neg]
  simp only [List.any_eq_true, not_exists, not_and]
  intro a _
  simp [h a]

theorem absorb_of_grid_zero (sizes : ℕ → ℕ) (c : Pot) (cv : List ℕ) (old new : Pot)
    (sv : List ℕ) (a0 : Assignment) (ha : a0 ∈ gridAsgs sizes sv) (hz : old a0 = 0) :
    SumProduct.absorb sizes c cv old new sv = fun _ => 0 := by
  unfold SumProduct.absorb
  rw [if_pos]
  exact List.any_eq_true.mpr ⟨a0, ha, by simp [hz]⟩

theorem absorb_pos (sizes : ℕ → ℕ) (c : Pot) (cv : List ℕ) (old new : Pot) (sv : List ℕ)
    (hold : ∀ a, 0 < old a) (hnew : ∀ a, 0 < new a) (hc : ∀ a, 0 < c a) :
    ∀ a, 0 < SumProduct.absorb sizes c cv old new sv a := by
  intro a
  rw [absorb_of_no_zero sizes c cv old new sv (fun b => ne_of_gt (hold b))]
  exact mul_pos (div_pos (hnew a) (hold a)) (hc a)

theorem project_absorb_ratio (sizes : ℕ → ℕ) (c : Pot) (cks : List ℕ) (old new : Pot)
    (sv : List ℕ) (hold : ∀ a, 0 < old a)
    (holdDep : DependsOnlyOn sv old) (hnewDep : DependsOnlyOn sv new)
    (hproj : ∀ a, SumProduct.project sizes c cks sv a = old a) :
    ∀ a, SumProduct.project sizes (SumProduct.absorb sizes c cks old new sv) cks sv a = new a := by
  intro a
  rw [absorb_of_no_zero sizes c cks old new sv (fun b => ne_of_gt (hold b))]
  unfold SumProduct.project
  have hr : ∀ k ∈ cks.filter (fun k => !sv.contains k), ∀ b v,
      (fun b => new b / old b) (setVar b k v) = (fun b => new b / old b) b := by
    intro k hk b v
    have hks : k ∉ sv := by
      have := (List.mem_filter.mp hk).2
      simpa using this
    exact dep_setVar_invariant sv _ (dep_div sv new old hnewDep holdDep) k hks b v
  have := sumOver_mul_left sizes (cks.filter (fun k => !sv.contains k)) (fun b => new b / old b) c hr a
  simp only at this
  rw [show (fun b => new b / old b * c b) = (fun a => new a / old a * c a) from rfl] at this
  rw [this]
  have : sumOver sizes (cks.filter (fun k => !sv.contains k)) c a = old a := hproj a
  rw [this, div_mul_cancel₀]
  exact ne_of_gt (hold a)

mutual

theorem idKeys_fst (t : JTree) : (idKeys t).map Prod.fst = allIds t := by
  cases t with
  | node i ks cs => simp [idKeys, allIds, idKeysL_fst cs]

theorem idKeysL_fst (cs : List (ℕ × List ℕ × JTree)) :
    (idKeysL cs).map Prod.fst = allIdsL cs := by
  cases cs with
  | nil => rfl
  | cons hd rest =>
    obtain ⟨s, sks, c⟩ := hd
    simp [idKeysL, allIdsL, idKeys_fst c, idKeysL_fst rest]

end

mutual

theorem cliqueIds_sub (t : JTree) : ∀ j ∈ cliqueIds t, j ∈ allIds t := by
  cases t with
  | node i ks cs =>
    intro j hj
    simp only [cliqueIds, allIds, List.mem_cons] at *
    rcases hj with rfl | hj
    · left; rfl
    · right; exact cliqueIdsL_sub cs j hj

theorem cliqueIdsL_sub (cs : List (ℕ × List ℕ × JTree)) : ∀ j ∈ cliqueIdsL cs, j ∈ allIdsL cs := by
  cases cs with
  | nil => intro j hj; cases hj
  | cons hd rest =>
    obtain ⟨s, sks, c⟩ := hd
    intro j hj
    simp only [cliqueIdsL, allIdsL, List.mem_cons, List.mem_append] at *
    rcases hj with hj | hj
    · right; left; exact cliqueIds_sub c j hj
    · right; right; exact cliqueIdsL_sub rest j hj

end

theorem rootId_mem_cliqueIds (t : JTree) : t.rootId ∈ cliqueIds t := by
  cases t with
  | node i ks cs => simp [JTree.rootId, cliqueIds]

theorem rootId_mem_allIds (t : JTree) : t.rootId ∈ allIds t := by
  cases t with
  | node i ks cs => simp [JTree.rootId, allIds]

theorem root_mem_idKeys (t : JTree) : (t.rootId, t.rootKeys) ∈ idKeys t := by
  cases t with
  | node i ks cs => simp [JTree.rootId, JTree.rootKeys, idKeys]

mutual

theorem edge_mem_idKeys (t : JTree) : ∀ e ∈ edges t,
    (e.sepId, e.sepKeys) ∈ idKeys t ∧ (e.childId, e.childKeys) ∈ idKeys t ∧
      (e.parentId, e.parentKeys) ∈ idKeys t := by
  cases t with
  | node i ks cs =>
    intro e he
    have := edgeL_mem_idKeys i ks cs e (by simpa [edges] using he)
    simp only [idKeys, List.mem_cons]
    exact ⟨Or.inr this.1, Or.inr this.2.1, this.2.2.imp id id⟩

theorem edgeL_mem_idKeys (i : ℕ) (ks : List ℕ) (cs : List (ℕ × List ℕ × JTree)) :
    ∀ e ∈ edgesL i ks cs,
      (e.sepId, e.sepKeys) ∈ idKeysL cs ∧ (e.childId, e.childKeys) ∈ idKeysL cs ∧
        ((e.parentId, e.parentKeys) = (i, ks) ∨ (e.parentId, e.parentKeys) ∈ idKeysL cs) := by
  cases cs with
  | nil => intro e he; cases he
  | cons hd rest =>
    obtain ⟨s, sks, c⟩ := hd
    intro e he
    simp only [edgesL, List.mem_cons, List.mem_append] at he
    simp only [idKeysL, List.mem_cons, List.mem_append]
    rcases he with rfl | he | he
    · exact ⟨Or.inl rfl, Or.inr (Or.inl (root_mem_idKeys c)), Or.inl rfl⟩
    · have h := edge_mem_idKeys c e he
      exact ⟨Or.inr (Or.inl h.1), Or.inr (Or.inl h.2.1), Or.inr (Or.inr (Or.inl h.2.2))⟩
    · have h := edgeL_mem_idKeys i ks rest e he
      refine ⟨Or.inr (Or.inr h.1), Or.inr (Or.inr h.2.1), ?_⟩
      rcases h.2.2 with h' | h'
      · exact Or.inl h'
      · exact Or.inr (Or.inr (Or.inr h'))

end

theorem mem_idKeys_mem_allIds (t : JTree) (p : ℕ × List ℕ) (hp : p ∈ idKeys t) :
    p.1 ∈ allIds t := by
  rw [← idKeys_fst t]
  exact List.mem_map_of_mem Prod.fst hp

theorem mem_idKeysL_mem_allIdsL (cs : List (ℕ × List ℕ × JTree)) (p : ℕ × List ℕ)
    (hp : p ∈ idKeysL cs) : p.1 ∈ allIdsL cs := by
  rw [← idKeysL_fst cs]
  exact List.mem_map_of_mem Prod.fst hp

mutual

theorem collect_spec (sizes : ℕ → ℕ) (t : JTree) (pots : Potentials) (vis : ℕ → Bool)
    (hsz : ∀ k, 1 ≤ sizes k)
    (hnd : (allIds t).Nodup)
    (hvis : ∀ j ∈ cliqueIds t, vis j = false)
    (hwf : ∀ e ∈ edges t,
      (∀ k ∈ e.sepKeys, k ∈ e.parentKeys) ∧ (∀ k ∈ e.sepKeys, k ∈ e.childKeys))
    (hdep : ∀ p ∈ idKeys t, DependsOnlyOn p.2 (pots p.1))
    (hpos : ∀ p ∈ idKeys t, ∀ a, 0 < pots p.1 a) :
    (∀ j, j ∉ allIds t → (collect sizes t pots vis).1 j = pots j) ∧
    (∀ j, (collect sizes t pots vis).2 j = (vis j || (cliqueIds t).contains j)) ∧
    (∀ p ∈ idKeys t, DependsOnlyOn p.2 ((collect sizes t pots vis).1 p.1)) ∧
    (∀ p ∈ idKeys t, ∀ a, 0 < (collect sizes t pots vis).1 p.1 a) ∧
    (∀ e ∈ edges t, ∀ a, (collect sizes t pots vis).1 e.sepId a =
      SumProduct.project sizes ((collect sizes t pots vis).1 e.childId) e.childKeys e.sepKeys a) := by
  cases t with
  | node i ks cs =>
    have hndL : (i :: allIdsL cs).Nodup := by simpa [allIds] using hnd
    have hiL : i ∉ allIdsL cs := (List.nodup_cons.mp hndL).1
    have hvisL : ∀ j ∈ cliqueIdsL cs, (fun j' => if j' = i then true else vis j') j = false := by
      intro j hj
      have hji : j ≠ i := by
        intro h
        exact hiL (h ▸ cliqueIdsL_sub cs j hj)
      simp only [if_neg hji]
      exact hvis j (by simp [cliqueIds, List.mem_cons, hj])
    have h := collectL_spec sizes i ks cs pots (fun j' => if j' = i then true else vis j') hsz hndL
      hvisL (by simpa [edges] using hwf) (by simpa [idKeys] using hdep)
      (by simpa [idKeys] using hpos)
    obtain ⟨hA, hB, hC, hD, hE⟩ := h
    have hcoll : collect sizes (.node i ks cs) pots vis =
        collectL sizes i ks cs pots (fun j' => if j' = i then true else vis j') := by
      simp [collect]
    rw [hcoll]
    refine ⟨?_, ?_, ?_, ?_, ?_⟩
    · intro j hj
      simp only [allIds, List.mem_cons, not_or] at hj
      exact hA j hj.1 hj.2
    · intro j
      rw [hB j]
      by_cases hji : j = i
      · subst hji
        simp [cliqueIds]
      · simp [cliqueIds, hji]
    · intro p hp
      exact hC p (by simpa [idKeys] using hp)
    · intro p hp
      exact hD p (by simpa [idKeys] using hp)
    · intro e he
      exact hE e (by simpa [edges] using he)

theorem collectL_spec (sizes : ℕ → ℕ) (i : ℕ) (ks : List ℕ) (cs : List (ℕ × List ℕ × JTree))
    (pots : Potentials) (vis : ℕ → Bool)
    (hsz : ∀ k, 1 ≤ sizes k)
    (hnd : (i :: allIdsL cs).Nodup)
    (hvis : ∀ j ∈ cliqueIdsL cs, vis j = false)
    (hwf : ∀ e ∈ edgesL i ks cs,
      (∀ k ∈ e.sepKeys, k ∈ e.parentKeys) ∧ (∀ k ∈ e.sepKeys, k ∈ e.childKeys))
    (hdep : ∀ p ∈ (i, ks) :: idKeysL cs, DependsOnlyOn p.2 (pots p.1))
    (hpos : ∀ p ∈ (i, ks) :: idKeysL cs, ∀ a, 0 < pots p.1 a) :
    (∀ j, j ≠ i → j ∉ allIdsL cs → (collectL sizes i ks cs pots vis).1 j = pots j) ∧
    (∀ j, (collectL sizes i ks cs pots vis).2 j = (vis j || (cliqueIdsL cs).contains j)) ∧
    (∀ p ∈ (i, ks) :: idKeysL cs, DependsOnlyOn p.2 ((collectL sizes i ks cs pots vis).1 p.1)) ∧
    (∀ p ∈ (i, ks) :: idKeysL cs, ∀ a, 0 < (collectL sizes i ks cs pots vis).1 p.1 a) ∧
    (∀ e ∈ edgesL i ks cs, ∀ a, (collectL sizes i ks cs pots vis).1 e.sepId a =
      SumProduct.project sizes ((collectL sizes i ks cs pots vis).1 e.childId)
        e.childKeys e.sepKeys a) := by
  cases cs with
  | nil =>
    refine ⟨fun j _ _ => rfl, fun j => by simp [collectL, cliqueIdsL], ?_, ?_, ?_⟩
    · intro p hp
      simpa [collectL] using hdep p hp
    · intro p hp
      simpa [collectL] using hpos p hp
    · intro e he
      cases he
  | cons hd rest =>
    obtain ⟨s, sks, c⟩ := hd
    -- dissect the Nodup hypothesis
    have hnd' : (i :: s :: (allIds c ++ allIdsL rest)).Nodup := by
      simpa [allIdsL] using hnd
    obtain ⟨himem, hnd1⟩ := List.nodup_cons.mp hnd'
    obtain ⟨hsmem, hnd2⟩ := List.nodup_cons.mp hnd1
    obtain ⟨hndC, hndR, hdisj⟩ := List.nodup_append.mp hnd2
    have his : i ≠ s := by
      intro h
      exact himem (h ▸ List.mem_cons_self _ _)
    have hiC : i ∉ allIds c := fun h => himem (List.mem_cons_of_mem _ (List.mem_append_left _ h))
    have hiR : i ∉ allIdsL rest := fun h => himem (List.mem_cons_of_mem _ (List.mem_append_right _ h))
    have hsC : s ∉ allIds c := fun h => hsmem (List.mem_append_left _ h)
    have hsR : s ∉ allIdsL rest := fun h => hsmem (List.mem_append_right _ h)
    have hRC : ∀ j ∈ allIdsL rest, j ∉ allIds c := fun j hj hc => hdisj hc hj
    have hndiR : (i :: allIdsL rest).Nodup := List.nodup_cons.mpr ⟨hiR, hndR⟩
    -- the child is unvisited
    have hrootC : c.rootId ∈ cliqueIds c := rootId_mem_cliqueIds c
    have hrootCa : c.rootId ∈ allIds c := rootId_mem_allIds c
    have hvisc : vis c.rootId = false :=
      hvis c.rootId (by simp [cliqueIdsL, List.mem_append, hrootC])
    -- recursive facts about the child's collect
    have hvisC : ∀ j ∈ cliqueIds c, vis j = false := by
      intro j hj
      exact hvis j (by simp [cliqueIdsL, List.mem_append, hj])
    have hwfC : ∀ e ∈ edges c,
        (∀ k ∈ e.sepKeys, k ∈ e.parentKeys) ∧ (∀ k ∈ e.sepKeys, k ∈ e.childKeys) := by
      intro e he
      exact hwf e (by simp [edgesL, List.mem_cons, List.mem_append, he])
    have hdepC : ∀ p ∈ idKeys c, DependsOnlyOn p.2 (pots p.1) := by
      intro p hp
      exact hdep p (by simp [idKeysL, List.mem_cons, List.mem_append, hp])
    have hposC : ∀ p ∈ idKeys c, ∀ a, 0 < pots p.1 a := by
      intro p hp
      exact hpos p (by simp [idKeysL, List.mem_cons, List.mem_append, hp])
    obtain ⟨cA, cB, cC, cD, cE⟩ := collect_spec sizes c pots vis hsz hndC hvisC hwfC hdepC hposC
    -- facts about the top-edge hypotheses
    have hwfTop := hwf ⟨i, ks, s, sks, c.rootId, c.rootKeys⟩ (by simp [edgesL])
    have hposS : ∀ a, 0 < pots s a := hpos (s, sks) (by simp [idKeysL]) 
    have hdepS : DependsOnlyOn sks (pots s) := hdep (s, sks) (by simp [idKeysL])
    have hposI : ∀ a, 0 < pots i a := hpos (i, ks) (by simp)
    have hdepI : DependsOnlyOn ks (pots i) := hdep (i, ks) (by simp)
    -- shorthand for the child result and the update
    have hchildI : (collect sizes c pots vis).1 i = pots i := cA i hiC
    have hchildS : (collect sizes c pots vis).1 s = pots s := cA s hsC
    have hdepRoot : DependsOnlyOn c.rootKeys ((collect sizes c pots vis).1 c.rootId) :=
      cC (c.rootId, c.rootKeys) (root_mem_idKeys c)
    have hposRoot : ∀ a, 0 < (collect sizes c pots vis).1 c.rootId a :=
      cD (c.rootId, c.rootKeys) (root_mem_idKeys c)
    -- the new separator
    have hdepNewSep : DependsOnlyOn sks
        (SumProduct.project sizes ((collect sizes c pots vis).1 c.rootId) c.rootKeys sks) :=
      project_dep sizes _ c.rootKeys sks hdepRoot
    have hposNewSep : ∀ a,
        0 < SumProduct.project sizes ((collect sizes c pots vis).1 c.rootId) c.rootKeys sks a :=
      project_pos sizes _ c.rootKeys sks hsz hposRoot
    -- the updated parent clique potential
    have habs : SumProduct.absorb sizes ((collect sizes c pots vis).1 i) ks
        ((collect sizes c pots vis).1 s)
        (SumProduct.project sizes ((collect sizes c pots vis).1 c.rootId) c.rootKeys sks) sks =
        fun a => (SumProduct.project sizes ((collect sizes c pots vis).1 c.rootId) c.rootKeys sks a /
          pots s a) * pots i a := by
      rw [hchildI, hchildS]
      exact absorb_of_no_zero sizes (pots i) ks (pots s) _ sks (fun a => ne_of_gt (hposS a))
    have hdepNewI : DependsOnlyOn ks
        (SumProduct.absorb sizes ((collect sizes c pots vis).1 i) ks
          ((collect sizes c pots vis).1 s)
          (SumProduct.project sizes ((collect sizes c pots vis).1 c.rootId) c.rootKeys sks) sks) := by
      rw [habs]
      exact dep_mul ks _ _
        (dep_mono sks ks _ (dep_div sks _ _ hdepNewSep hdepS) hwfTop.1) hdepI
    have hposNewI : ∀ a,
        0 < SumProduct.absorb sizes ((collect sizes c pots vis).1 i) ks
          ((collect sizes c pots vis).1 s)
          (SumProduct.project sizes ((collect sizes c pots vis).1 c.rootId) c.rootKeys sks) sks a := by
      rw [hchildI, hchildS]
      exact absorb_pos sizes (pots i) ks (pots s) _ sks hposS hposNewSep hposI
    -- one unfolding step of collectL
    have hstep : collectL sizes i ks ((s, sks, c) :: rest) pots vis =
        collectL sizes i ks rest
          (fun j => if j = s then
              (SumProduct.update sizes ((collect sizes c pots vis).1 c.rootId) c.rootKeys
                ((collect sizes c pots vis).1 i) ks ((collect sizes c pots vis).1 s) sks).2
            else if j = i then
              (SumProduct.update sizes ((collect sizes c pots vis).1 c.rootId) c.rootKeys
                ((collect sizes c pots vis).1 i) ks ((collect sizes c pots vis).1 s) sks).1
            else (collect sizes c pots vis).1 j)
          (collect sizes c pots vis).2 := by
      simp only [collectL, hvisc, Bool.false_eq_true, if_false]
    -- names for the table after the top-edge update
    rw [hstep]
    have hupd1 : (SumProduct.update sizes ((collect sizes c pots vis).1 c.rootId) c.rootKeys
        ((collect sizes c pots vis).1 i) ks ((collect sizes c pots vis).1 s) sks).1 =
        SumProduct.absorb sizes ((collect sizes c pots vis).1 i) ks
          ((collect sizes c pots vis).1 s)
          (SumProduct.project sizes ((collect sizes c pots vis).1 c.rootId) c.rootKeys sks) sks := rfl
    have hupd2 : (SumProduct.update sizes ((collect sizes c pots vis).1 c.rootId) c.rootKeys
        ((collect sizes c pots vis).1 i) ks ((collect sizes c pots vis).1 s) sks).2 =
        SumProduct.project sizes ((collect sizes c pots vis).1 c.rootId) c.rootKeys sks := rfl
    -- hypotheses for the tail call
    have hvisR : ∀ j ∈ cliqueIdsL rest, (collect sizes c pots vis).2 j = false := by
      intro j hj
      rw [cB j]
      have hj1 : j ∈ allIdsL rest := cliqueIdsL_sub rest j hj
      have hj2 : j ∉ cliqueIds c := by
        intro hc
        exact hRC j hj1 (cliqueIds_sub c j hc)
      simp [hvis j (by simp [cliqueIdsL, List.mem_append, hj]), hj2]
    have hwfR : ∀ e ∈ edgesL i ks rest,
        (∀ k ∈ e.sepKeys, k ∈ e.parentKeys) ∧ (∀ k ∈ e.sepKeys, k ∈ e.childKeys) := by
      intro e he
      exact hwf e (by simp [edgesL, List.mem_cons, List.mem_append, he])
    have hdepR : ∀ p ∈ (i, ks) :: idKeysL rest, DependsOnlyOn p.2
        ((fun j => if j = s then
            (SumProduct.update sizes ((collect sizes c pots vis).1 c.rootId) c.rootKeys
              ((collect sizes c pots vis).1 i) ks ((collect sizes c pots vis).1 s) sks).2
          else if j = i then
            (SumProduct.update sizes ((collect sizes c pots vis).1 c.rootId) c.rootKeys
              ((collect sizes c pots vis).1 i) ks ((collect sizes c pots vis).1 s) sks).1
          else (collect sizes c pots vis).1 j) p.1) := by
      intro p hp
      rcases List.mem_cons.mp hp with rfl | hp'
      · simp only [if_neg his, if_pos rfl, hupd1]
        exact hdepNewI
      · have hp1 : p.1 ∈ allIdsL rest := mem_idKeysL_mem_allIdsL rest p hp'
        have hps : p.1 ≠ s := fun h => hsR (h ▸ hp1)
        have hpi : p.1 ≠ i := fun h => hiR (h ▸ hp1)
        have hpC : p.1 ∉ allIds c := hRC p.1 hp1
        simp only [if_neg hps, if_neg hpi]
        rw [cA p.1 hpC]
        exact hdep p (by simp [idKeysL, List.mem_cons, List.mem_append, hp'])
    have hposR : ∀ p ∈ (i, ks) :: idKeysL rest, ∀ a, 0 <
        ((fun j => if j = s then
            (SumProduct.update sizes ((collect sizes c pots vis).1 c.rootId) c.rootKeys
              ((collect sizes c pots vis).1 i) ks ((collect sizes c pots vis).1 s) sks).2
          else if j = i then
            (SumProduct.update sizes ((collect sizes c pots vis).1 c.rootId) c.rootKeys
              ((collect sizes c pots vis).1 i) ks ((collect sizes c pots vis).1 s) sks).1
          else (collect sizes c pots vis).1 j) p.1) a := by
      intro p hp
      rcases List.mem_cons.mp hp with rfl | hp'
      · simp only [if_neg his, if_pos rfl, hupd1]
        exact hposNewI
      · have hp1 : p.1 ∈ allIdsL rest := mem_idKeysL_mem_allIdsL rest p hp'
        have hps : p.1 ≠ s := fun h => hsR (h ▸ hp1)
        have hpi : p.1 ≠ i := fun h => hiR (h ▸ hp1)
        have hpC : p.1 ∉ allIds c := hRC p.1 hp1
        simp only [if_neg hps, if_neg hpi]
        rw [cA p.1 hpC]
        exact hpos p (by simp [idKeysL, List.mem_cons, List.mem_append, hp'])
    obtain ⟨rA, rB, rC, rD, rE⟩ := collectL_spec sizes i ks rest
      (fun j => if j = s then
          (SumProduct.update sizes ((collect sizes c pots vis).1 c.rootId) c.rootKeys
            ((collect sizes c pots vis).1 i) ks ((collect sizes c pots vis).1 s) sks).2
        else if j = i then
          (SumProduct.update sizes ((collect sizes c pots vis).1 c.rootId) c.rootKeys
            ((collect sizes c pots vis).1 i) ks ((collect sizes c pots vis).1 s) sks).1
        else (collect sizes c pots vis).1 j)
      ((collect sizes c pots vis).2) hsz hndiR hvisR hwfR hdepR hposR
    -- untouched-by-the-tail facts for ids of the processed child and its separator
    have hkeepS : (collectL sizes i ks rest
        (fun j => if j = s then
            (SumProduct.update sizes ((collect sizes c pots vis).1 c.rootId) c.rootKeys
              ((collect sizes c pots vis).1 i) ks ((collect sizes c pots vis).1 s) sks).2
          else if j = i then
            (SumProduct.update sizes ((collect sizes c pots vis).1 c.rootId) c.rootKeys
              ((collect sizes c pots vis).1 i) ks ((collect sizes c pots vis).1 s) sks).1
          else (collect sizes c pots vis).1 j)
        (collect sizes c pots vis).2).1 s =
        SumProduct.project sizes ((collect sizes c pots vis).1 c.rootId) c.rootKeys sks := by
      rw [rA s (fun h => his h.symm) hsR]
      simp [hupd2]
    have hkeepC : ∀ j ∈ allIds c, (collectL sizes i ks rest
        (fun j' => if j' = s then
            (SumProduct.update sizes ((collect sizes c pots vis).1 c.rootId) c.rootKeys
              ((collect sizes c pots vis).1 i) ks ((collect sizes c pots vis).1 s) sks).2
          else if j' = i then
            (SumProduct.update sizes ((collect sizes c pots vis).1 c.rootId) c.rootKeys
              ((collect sizes c pots vis).1 i) ks ((collect sizes c pots vis).1 s) sks).1
          else (collect sizes c pots vis).1 j')
        (collect sizes c pots vis).2).1 j = (collect sizes c pots vis).1 j := by
      intro j hj
      have hjs : j ≠ s := fun h => hsC (h ▸ hj)
      have hji : j ≠ i := fun h => hiC (h ▸ hj)
      have hjR : j ∉ allIdsL rest := fun h => hRC j h hj
      rw [rA j hji hjR]
      simp [hjs, hji]
    refine ⟨?_, ?_, ?_, ?_, ?_⟩
    · -- untouched ids
      intro j hji hj
      simp only [allIdsL, List.mem_cons, List.mem_append, not_or] at hj
      rw [rA j hji hj.2.2]
      simp only [if_neg hj.1, if_neg hji]
      exact cA j hj.2.1
    · -- visited characterisation
      intro j
      rw [rB j, cB j]
      simp [cliqueIdsL, List.mem_append, Bool.or_assoc]
    · -- tensors stay over their keys
      intro p hp
      rcases List.mem_cons.mp hp with rfl | hp'
      · exact rC (i, ks) (List.mem_cons_self _ _)
      · simp only [idKeysL, List.mem_cons, List.mem_append] at hp'
        rcases hp' with rfl | hp' | hp'
        · rw [hkeepS]
          exact hdepNewSep
        · rw [hkeepC p.1 (mem_idKeys_mem_allIds c p hp')]
          exact cC p hp'
        · exact rC p (List.mem_cons_of_mem _ hp')
    · -- positivity
      intro p hp
      rcases List.mem_cons.mp hp with rfl | hp'
      · exact rD (i, ks) (List.mem_cons_self _ _)
      · simp only [idKeysL, List.mem_cons, List.mem_append] at hp'
        rcases hp' with rfl | hp' | hp'
        · rw [hkeepS]
          exact hposNewSep
        · rw [hkeepC p.1 (mem_idKeys_mem_allIds c p hp')]
          exact cD p hp'
        · exact rD p (List.mem_cons_of_mem _ hp')
    · -- post-collect separators are the projections of their children
      intro e he
      simp only [edgesL, List.mem_cons, List.mem_append] at he
      rcases he with rfl | he | he
      · intro a
        simp only
        rw [hkeepS, hkeepC c.rootId hrootCa]
      · intro a
        have hsep := edge_mem_idKeys c e he
        have hsepA : e.sepId ∈ allIds c := mem_idKeys_mem_allIds c _ hsep.1
        have hchA : e.childId ∈ allIds c := mem_idKeys_mem_allIds c _ hsep.2.1
        rw [hkeepC e.sepId hsepA, hkeepC e.childId hchA]
        exact cE e he a
      · exact rE e he
end

theorem idKeys_root_or_tail (t : JTree) (hnd : (allIds t).Nodup) :
    ∀ p ∈ idKeys t, p = (t.rootId, t.rootKeys) ∨ (p ∈ idKeys t ∧ p.1 ≠ t.rootId) := by
  cases t with
  | node i ks cs =>
    intro p hp
    simp only [idKeys, List.mem_cons] at hp
    rcases hp with rfl | hp'
    · exact Or.inl rfl
    · right
      refine ⟨by simp [idKeys, List.mem_cons, hp'], ?_⟩
      have h1 : p.1 ∈ allIdsL cs := mem_idKeysL_mem_allIdsL cs p hp'
      have h2 : i ∉ allIdsL cs := by
        have : (i :: allIdsL cs).Nodup := by simpa [allIds] using hnd
        exact (List.nodup_cons.mp this).1
      simp only [JTree.rootId]
      intro h
      exact h2 (h ▸ h1)

theorem edgeL_ids_mem (i : ℕ) (ks : List ℕ) (cs : List (ℕ × List ℕ × JTree)) :
    ∀ e ∈ edgesL i ks cs, e.sepId ∈ allIdsL cs ∧ e.childId ∈ allIdsL cs := by
  intro e he
  have h := edgeL_mem_idKeys i ks cs e he
  exact ⟨mem_idKeysL_mem_allIdsL cs _ h.1, mem_idKeysL_mem_allIdsL cs _ h.2.1⟩

theorem edge_ids_ne_root (t : JTree) (hnd : (allIds t).Nodup) :
    ∀ e ∈ edges t, e.sepId ≠ t.rootId ∧ e.childId ≠ t.rootId := by
  cases t with
  | node i ks cs =>
    intro e he
    have h := edgeL_ids_mem i ks cs e (by simpa [edges] using he)
    have h2 : i ∉ allIdsL cs := by
      have : (i :: allIdsL cs).Nodup := by simpa [allIds] using hnd
      exact (List.nodup_cons.mp this).1
    simp only [JTree.rootId]
    exact ⟨fun hx => h2 (hx ▸ h.1), fun hx => h2 (hx ▸ h.2)⟩

theorem edge_parent_mem (t : JTree) : ∀ e ∈ edges t, e.parentId ∈ allIds t := by
  intro e he
  exact mem_idKeys_mem_allIds t _ (edge_mem_idKeys t e he).2.2

theorem edge_ids_mem (t : JTree) : ∀ e ∈ edges t, e.sepId ∈ allIds t ∧ e.childId ∈ allIds t := by
  intro e he
  exact ⟨mem_idKeys_mem_allIds t _ (edge_mem_idKeys t e he).1,
    mem_idKeys_mem_allIds t _ (edge_mem_idKeys t e he).2.1⟩

mutual

theorem distribute_spec (sizes : ℕ → ℕ) (t : JTree) (pots : Potentials) (vis : ℕ → Bool)
    (hsz : ∀ k, 1 ≤ sizes k)
    (hnd : (allIds t).Nodup)
    (hvis : ∀ j ∈ cliqueIds t, vis j = false)
    (hwf : ∀ e ∈ edges t,
      (∀ k ∈ e.sepKeys, k ∈ e.parentKeys) ∧ (∀ k ∈ e.sepKeys, k ∈ e.childKeys))
    (hdep : ∀ p ∈ idKeys t, DependsOnlyOn p.2 (pots p.1))
    (hpos : ∀ p ∈ idKeys t, ∀ a, 0 < pots p.1 a)
    (hcal : ∀ e ∈ edges t, ∀ a, pots e.sepId a =
      SumProduct.project sizes (pots e.childId) e.childKeys e.sepKeys a) :
    (∀ j, j = t.rootId ∨ j ∉ allIds t → (distribute sizes t pots vis).1 j = pots j) ∧
    (∀ j, (distribute sizes t pots vis).2 j = (vis j || (cliqueIds t).contains j)) ∧
    (∀ p ∈ idKeys t, DependsOnlyOn p.2 ((distribute sizes t pots vis).1 p.1)) ∧
    (∀ p ∈ idKeys t, ∀ a, 0 < (distribute sizes t pots vis).1 p.1 a) ∧
    (∀ e ∈ edges t, ∀ a,
      (distribute sizes t pots vis).1 e.sepId a =
        SumProduct.project sizes ((distribute sizes t pots vis).1 e.parentId)
          e.parentKeys e.sepKeys a ∧
      SumProduct.project sizes ((distribute sizes t pots vis).1 e.childId)
          e.childKeys e.sepKeys a = (distribute sizes t pots vis).1 e.sepId a) := by
  cases t with
  | node i ks cs =>
    have hndL : (i :: allIdsL cs).Nodup := by simpa [allIds] using hnd
    have hiL : i ∉ allIdsL cs := (List.nodup_cons.mp hndL).1
    have hvisL : ∀ j ∈ cliqueIdsL cs, (fun j' => if j' = i then true else vis j') j = false := by
      intro j hj
      have hji : j ≠ i := by
        intro h
        exact hiL (h ▸ cliqueIdsL_sub cs j hj)
      simp only [if_neg hji]
      exact hvis j (by simp [cliqueIds, List.mem_cons, hj])
    have h := distributeL_spec sizes i ks cs pots (fun j' => if j' = i then true else vis j') hsz
      hndL hvisL (by simpa [edges] using hwf) (by simpa [idKeys] using hdep)
      (by simpa [idKeys] using hpos) (by simpa [edges] using hcal)
    obtain ⟨hA, hB, hC, hD, hE⟩ := h
    have hdist : distribute sizes (.node i ks cs) pots vis =
        distributeL sizes i ks cs pots (fun j' => if j' = i then true else vis j') := by
      simp [distribute]
    rw [hdist]
    refine ⟨?_, ?_, ?_, ?_, ?_⟩
    · intro j hj
      simp only [JTree.rootId] at hj
      rcases hj with rfl | hj
      · exact hA j (Or.inl rfl)
      · simp only [allIds, List.mem_cons, not_or] at hj
        exact hA j (Or.inr hj.2)
    · intro j
      rw [hB j]
      by_cases hji : j = i
      · subst hji
        simp [cliqueIds]
      · simp [cliqueIds, hji]
    · intro p hp
      exact hC p (by simpa [idKeys] using hp)
    · intro p hp
      exact hD p (by simpa [idKeys] using hp)
    · intro e he
      exact hE e (by simpa [edges] using he)

theorem distributeL_spec (sizes : ℕ → ℕ) (i : ℕ) (ks : List ℕ)
    (cs : List (ℕ × List ℕ × JTree)) (pots : Potentials) (vis : ℕ → Bool)
    (hsz : ∀ k, 1 ≤ sizes k)
    (hnd : (i :: allIdsL cs).Nodup)
    (hvis : ∀ j ∈ cliqueIdsL cs, vis j = false)
    (hwf : ∀ e ∈ edgesL i ks cs,
      (∀ k ∈ e.sepKeys, k ∈ e.parentKeys) ∧ (∀ k ∈ e.sepKeys, k ∈ e.childKeys))
    (hdep : ∀ p ∈ (i, ks) :: idKeysL cs, DependsOnlyOn p.2 (pots p.1))
    (hpos : ∀ p ∈ (i, ks) :: idKeysL cs, ∀ a, 0 < pots p.1 a)
    (hcal : ∀ e ∈ edgesL i ks cs, ∀ a, pots e.sepId a =
      SumProduct.project sizes (pots e.childId) e.childKeys e.sepKeys a) :
    (∀ j, j = i ∨ j ∉ allIdsL cs → (distributeL sizes i ks cs pots vis).1 j = pots j) ∧
    (∀ j, (distributeL sizes i ks cs pots vis).2 j = (vis j || (cliqueIdsL cs).contains j)) ∧
    (∀ p ∈ (i, ks) :: idKeysL cs, DependsOnlyOn p.2 ((distributeL sizes i ks cs pots vis).1 p.1)) ∧
    (∀ p ∈ (i, ks) :: idKeysL cs, ∀ a, 0 < (distributeL sizes i ks cs pots vis).1 p.1 a) ∧
    (∀ e ∈ edgesL i ks cs, ∀ a,
      (distributeL sizes i ks cs pots vis).1 e.sepId a =
        SumProduct.project sizes ((distributeL sizes i ks cs pots vis).1 e.parentId)
          e.parentKeys e.sepKeys a ∧
      SumProduct.project sizes ((distributeL sizes i ks cs pots vis).1 e.childId)
          e.childKeys e.sepKeys a = (distributeL sizes i ks cs pots vis).1 e.sepId a) := by
  cases cs with
  | nil =>
    refine ⟨fun j _ => rfl, fun j => by simp [distributeL, cliqueIdsL], ?_, ?_, ?_⟩
    · intro p hp
      simpa [distributeL] using hdep p hp
    · intro p hp
      simpa [distributeL] using hpos p hp
    · intro e he
      cases he
  | cons hd rest =>
    obtain ⟨s, sks, c⟩ := hd
    have hnd' : (i :: s :: (allIds c ++ allIdsL rest)).Nodup := by
      simpa [allIdsL] using hnd
    obtain ⟨himem, hnd1⟩ := List.nodup_cons.mp hnd'
    obtain ⟨hsmem, hnd2⟩ := List.nodup_cons.mp hnd1
    obtain ⟨hndC, hndR, hdisj⟩ := List.nodup_append.mp hnd2
    have his : i ≠ s := by
      intro h
      exact himem (h ▸ List.mem_cons_self _ _)
    have hiC : i ∉ allIds c := fun h => himem (List.mem_cons_of_mem _ (List.mem_append_left _ h))
    have hiR : i ∉ allIdsL rest := fun h => himem (List.mem_cons_of_mem _ (List.mem_append_right _ h))
    have hsC : s ∉ allIds c := fun h => hsmem (List.mem_append_left _ h)
    have hsR : s ∉ allIdsL rest := fun h => hsmem (List.mem_append_right _ h)
    have hRC : ∀ j ∈ allIdsL rest, j ∉ allIds c := fun j hj hc => hdisj hc hj
    have hndiR : (i :: allIdsL rest).Nodup := List.nodup_cons.mpr ⟨hiR, hndR⟩
    have hrootCa : c.rootId ∈ allIds c := rootId_mem_allIds c
    have hvisc : vis c.rootId = false :=
      hvis c.rootId (by simp [cliqueIdsL, List.mem_append, rootId_mem_cliqueIds c])
    have hrootS : c.rootId ≠ s := fun h => hsC (h ▸ hrootCa)
    have hrootI : c.rootId ≠ i := fun h => hiC (h ▸ hrootCa)
    -- top-edge hypotheses
    have hwfTop := hwf ⟨i, ks, s, sks, c.rootId, c.rootKeys⟩ (by simp [edgesL])
    have hcalTop : ∀ a, pots s a =
        SumProduct.project sizes (pots c.rootId) c.rootKeys sks a :=
      hcal ⟨i, ks, s, sks, c.rootId, c.rootKeys⟩ (by simp [edgesL])
    have hposS : ∀ a, 0 < pots s a := hpos (s, sks) (by simp [idKeysL])
    have hdepS : DependsOnlyOn sks (pots s) := hdep (s, sks) (by simp [idKeysL])
    have hposI : ∀ a, 0 < pots i a := hpos (i, ks) (by simp)
    have hdepI : DependsOnlyOn ks (pots i) := hdep (i, ks) (by simp)
    have hposRoot : ∀ a, 0 < pots c.rootId a :=
      hpos (c.rootId, c.rootKeys) (by simp [idKeysL, List.mem_cons, List.mem_append,
        root_mem_idKeys c])
    have hdepRoot : DependsOnlyOn c.rootKeys (pots c.rootId) :=
      hdep (c.rootId, c.rootKeys) (by simp [idKeysL, List.mem_cons, List.mem_append,
        root_mem_idKeys c])
    -- the update of the top edge
    have hupd1 : (SumProduct.update sizes (pots i) ks (pots c.rootId) c.rootKeys (pots s) sks).1 =
        SumProduct.absorb sizes (pots c.rootId) c.rootKeys (pots s)
          (SumProduct.project sizes (pots i) ks sks) sks := rfl
    have hupd2 : (SumProduct.update sizes (pots i) ks (pots c.rootId) c.rootKeys (pots s) sks).2 =
        SumProduct.project sizes (pots i) ks sks := rfl
    have hdepNewSep : DependsOnlyOn sks (SumProduct.project sizes (pots i) ks sks) :=
      project_dep sizes _ ks sks hdepI
    have hposNewSep : ∀ a, 0 < SumProduct.project sizes (pots i) ks sks a :=
      project_pos sizes _ ks sks hsz hposI
    have habs : (SumProduct.update sizes (pots i) ks (pots c.rootId) c.rootKeys (pots s) sks).1 =
        fun a => (SumProduct.project sizes (pots i) ks sks a / pots s a) * pots c.rootId a := by
      rw [hupd1]
      exact absorb_of_no_zero sizes (pots c.rootId) c.rootKeys (pots s) _ sks
        (fun a => ne_of_gt (hposS a))
    have hdepNewC : DependsOnlyOn c.rootKeys
        (SumProduct.update sizes (pots i) ks (pots c.rootId) c.rootKeys (pots s) sks).1 := by
      rw [habs]
      exact dep_mul c.rootKeys _ _
        (dep_mono sks c.rootKeys _ (dep_div sks _ _ hdepNewSep hdepS) hwfTop.2) hdepRoot
    have hposNewC : ∀ a,
        0 < (SumProduct.update sizes (pots i) ks (pots c.rootId) c.rootKeys (pots s) sks).1 a := by
      rw [hupd1]
      exact absorb_pos sizes (pots c.rootId) c.rootKeys (pots s) _ sks hposS hposNewSep hposRoot
    have hchildCal : ∀ a, SumProduct.project sizes
        (SumProduct.update sizes (pots i) ks (pots c.rootId) c.rootKeys (pots s) sks).1
        c.rootKeys sks a =
        (SumProduct.update sizes (pots i) ks (pots c.rootId) c.rootKeys (pots s) sks).2 a := by
      rw [hupd1, hupd2]
      exact project_absorb_ratio sizes (pots c.rootId) c.rootKeys (pots s)
        (SumProduct.project sizes (pots i) ks sks) sks hposS hdepS hdepNewSep
        (fun a => (hcalTop a).symm)
    -- one unfolding step of distributeL
    have hstep : distributeL sizes i ks ((s, sks, c) :: rest) pots vis =
        distributeL sizes i ks rest
          (distribute sizes c
            (fun j => if j = s then
                (SumProduct.update sizes (pots i) ks (pots c.rootId) c.rootKeys (pots s) sks).2
              else if j = c.rootId then
                (SumProduct.update sizes (pots i) ks (pots c.rootId) c.rootKeys (pots s) sks).1
              else pots j) vis).1
          (distribute sizes c
            (fun j => if j = s then
                (SumProduct.update sizes (pots i) ks (pots c.rootId) c.rootKeys (pots s) sks).2
              else if j = c.rootId then
                (SumProduct.update sizes (pots i) ks (pots c.rootId) c.rootKeys (pots s) sks).1
              else pots j) vis).2 := by
      simp only [distributeL, hvisc, Bool.false_eq_true, if_false]
    rw [hstep]
    -- facts about the updated table pots1
    have hpots1S : (fun j => if j = s then
        (SumProduct.update sizes (pots i) ks (pots c.rootId) c.rootKeys (pots s) sks).2
      else if j = c.rootId then
        (SumProduct.update sizes (pots i) ks (pots c.rootId) c.rootKeys (pots s) sks).1
      else pots j) s =
        (SumProduct.update sizes (pots i) ks (pots c.rootId) c.rootKeys (pots s) sks).2 := by
      simp
    have hpots1Root : (fun j => if j = s then
        (SumProduct.update sizes (pots i) ks (pots c.rootId) c.rootKeys (pots s) sks).2
      else if j = c.rootId then
        (SumProduct.update sizes (pots i) ks (pots c.rootId) c.rootKeys (pots s) sks).1
      else pots j) c.rootId =
        (SumProduct.update sizes (pots i) ks (pots c.rootId) c.rootKeys (pots s) sks).1 := by
      simp [hrootS]
    have hpots1Other : ∀ j, j ≠ s → j ≠ c.rootId → (fun j' => if j' = s then
        (SumProduct.update sizes (pots i) ks (pots c.rootId) c.rootKeys (pots s) sks).2
      else if j' = c.rootId then
        (SumProduct.update sizes (pots i) ks (pots c.rootId) c.rootKeys (pots s) sks).1
      else pots j') j = pots j := by
      intro j h1 h2
      simp [h1, h2]
    -- the recursive distribute on the child
    have hvisC : ∀ j ∈ cliqueIds c, vis j = false := by
      intro j hj
      exact hvis j (by simp [cliqueIdsL, List.mem_append, hj])
    have hwfC : ∀ e ∈ edges c,
        (∀ k ∈ e.sepKeys, k ∈ e.parentKeys) ∧ (∀ k ∈ e.sepKeys, k ∈ e.childKeys) := by
      intro e he
      exact hwf e (by simp [edgesL, List.mem_cons, List.mem_append, he])
    have hdepC : ∀ p ∈ idKeys c, DependsOnlyOn p.2 ((fun j => if j = s then
        (SumProduct.update sizes (pots i) ks (pots c.rootId) c.rootKeys (pots s) sks).2
      else if j = c.rootId then
        (SumProduct.update sizes (pots i) ks (pots c.rootId) c.rootKeys (pots s) sks).1
      else pots j) p.1) := by
      intro p hp
      rcases idKeys_root_or_tail c hndC p hp with rfl | ⟨hp', hne⟩
      · rw [hpots1Root]
        exact hdepNewC
      · have hps : p.1 ≠ s := fun h => hsC (h ▸ mem_idKeys_mem_allIds c p hp')
        rw [hpots1Other p.1 hps hne]
        exact hdep p (by simp [idKeysL, List.mem_cons, List.mem_append, hp'])
    have hposC : ∀ p ∈ idKeys c, ∀ a, 0 < ((fun j => if j = s then
        (SumProduct.update sizes (pots i) ks (pots c.rootId) c.rootKeys (pots s) sks).2
      else if j = c.rootId then
        (SumProduct.update sizes (pots i) ks (pots c.rootId) c.rootKeys (pots s) sks).1
      else pots j) p.1) a := by
      intro p hp
      rcases idKeys_root_or_tail c hndC p hp with rfl | ⟨hp', hne⟩
      · rw [hpots1Root]
        exact hposNewC
      · have hps : p.1 ≠ s := fun h => hsC (h ▸ mem_idKeys_mem_allIds c p hp')
        rw [hpots1Other p.1 hps hne]
        exact hpos p (by simp [idKeysL, List.mem_cons, List.mem_append, hp'])
    have hcalC : ∀ e ∈ edges c, ∀ a, ((fun j => if j = s then
        (SumProduct.update sizes (pots i) ks (pots c.rootId) c.rootKeys (pots s) sks).2
      else if j = c.rootId then
        (SumProduct.update sizes (pots i) ks (pots c.rootId) c.rootKeys (pots s) sks).1
      else pots j) e.sepId) a =
        SumProduct.project sizes ((fun j => if j = s then
          (SumProduct.update sizes (pots i) ks (pots c.rootId) c.rootKeys (pots s) sks).2
        else if j = c.rootId then
          (SumProduct.update sizes (pots i) ks (pots c.rootId) c.rootKeys (pots s) sks).1
        else pots j) e.childId) e.childKeys e.sepKeys a := by
      intro e he a
      have hne := edge_ids_ne_root c hndC e he
      have hids := edge_ids_mem c e he
      have hseps : e.sepId ≠ s := fun h => hsC (h ▸ hids.1)
      have hchs : e.childId ≠ s := fun h => hsC (h ▸ hids.2)
      rw [hpots1Other e.sepId hseps hne.1, hpots1Other e.childId hchs hne.2]
      exact hcal e (by simp [edgesL, List.mem_cons, List.mem_append, he]) a
    obtain ⟨dA, dB, dC, dD, dE⟩ := distribute_spec sizes c
      (fun j => if j = s then
          (SumProduct.update sizes (pots i) ks (pots c.rootId) c.rootKeys (pots s) sks).2
        else if j = c.rootId then
          (SumProduct.update sizes (pots i) ks (pots c.rootId) c.rootKeys (pots s) sks).1
        else pots j) vis hsz hndC hvisC hwfC hdepC hposC hcalC
    -- after the child's distribute: facts about the table pv.1
    have hpvS : (distribute sizes c
        (fun j => if j = s then
            (SumProduct.update sizes (pots i) ks (pots c.rootId) c.rootKeys (pots s) sks).2
          else if j = c.rootId then
            (SumProduct.update sizes (pots i) ks (pots c.rootId) c.rootKeys (pots s) sks).1
          else pots j) vis).1 s =
        (SumProduct.update sizes (pots i) ks (pots c.rootId) c.rootKeys (pots s) sks).2 := by
      rw [dA s (Or.inr hsC)]
      exact hpots1S
    have hpvRoot : (distribute sizes c
        (fun j => if j = s then
            (SumProduct.update sizes (pots i) ks (pots c.rootId) c.rootKeys (pots s) sks).2
          else if j = c.rootId then
            (SumProduct.update sizes (pots i) ks (pots c.rootId) c.rootKeys (pots s) sks).1
          else pots j) vis).1 c.rootId =
        (SumProduct.update sizes (pots i) ks (pots c.rootId) c.rootKeys (pots s) sks).1 := by
      rw [dA c.rootId (Or.inl rfl)]
      exact hpots1Root
    have hpvOther : ∀ j, j ∉ allIds c → j ≠ s →
        (distribute sizes c
          (fun j' => if j' = s then
              (SumProduct.update sizes (pots i) ks (pots c.rootId) c.rootKeys (pots s) sks).2
            else if j' = c.rootId then
              (SumProduct.update sizes (pots i) ks (pots c.rootId) c.rootKeys (pots s) sks).1
            else pots j') vis).1 j = pots j := by
      intro j hjC hjs
      rw [dA j (Or.inr hjC)]
      exact hpots1Other j hjs (fun h => hjC (h ▸ hrootCa))
    -- hypotheses for the tail call
    have hvisR : ∀ j ∈ cliqueIdsL rest, (distribute sizes c
        (fun j' => if j' = s then
            (SumProduct.update sizes (pots i) ks (pots c.rootId) c.rootKeys (pots s) sks).2
          else if j' = c.rootId then
            (SumProduct.update sizes (pots i) ks (pots c.rootId) c.rootKeys (pots s) sks).1
          else pots j') vis).2 j = false := by
      intro j hj
      rw [dB j]
      have hj1 : j ∈ allIdsL rest := cliqueIdsL_sub rest j hj
      have hj2 : j ∉ cliqueIds c := by
        intro hc
        exact hRC j hj1 (cliqueIds_sub c j hc)
      simp [hvis j (by simp [cliqueIdsL, List.mem_append, hj]), hj2]
    have hwfR : ∀ e ∈ edgesL i ks rest,
        (∀ k ∈ e.sepKeys, k ∈ e.parentKeys) ∧ (∀ k ∈ e.sepKeys, k ∈ e.childKeys) := by
      intro e he
      exact hwf e (by simp [edgesL, List.mem_cons, List.mem_append, he])
    have hdepR : ∀ p ∈ (i, ks) :: idKeysL rest, DependsOnlyOn p.2 ((distribute sizes c
        (fun j' => if j' = s then
            (SumProduct.update sizes (pots i) ks (pots c.rootId) c.rootKeys (pots s) sks).2
          else if j' = c.rootId then
            (SumProduct.update sizes (pots i) ks (pots c.rootId) c.rootKeys (pots s) sks).1
          else pots j') vis).1 p.1) := by
      intro p hp
      rcases List.mem_cons.mp hp with rfl | hp'
      · rw [hpvOther i hiC his]
        exact hdepI
      · have hp1 : p.1 ∈ allIdsL rest := mem_idKeysL_mem_allIdsL rest p hp'
        rw [hpvOther p.1 (hRC p.1 hp1) (fun h => hsR (h ▸ hp1))]
        exact hdep p (by simp [idKeysL, List.mem_cons, List.mem_append, hp'])
    have hposR : ∀ p ∈ (i, ks) :: idKeysL rest, ∀ a, 0 < ((distribute sizes c
        (fun j' => if j' = s then
            (SumProduct.update sizes (pots i) ks (pots c.rootId) c.rootKeys (pots s) sks).2
          else if j' = c.rootId then
            (SumProduct.update sizes (pots i) ks (pots c.rootId) c.rootKeys (pots s) sks).1
          else pots j') vis).1 p.1) a := by
      intro p hp
      rcases List.mem_cons.mp hp with rfl | hp'
      · rw [hpvOther i hiC his]
        exact hposI
      · have hp1 : p.1 ∈ allIdsL rest := mem_idKeysL_mem_allIdsL rest p hp'
        rw [hpvOther p.1 (hRC p.1 hp1) (fun h => hsR (h ▸ hp1))]
        exact hpos p (by simp [idKeysL, List.mem_cons, List.mem_append, hp'])
    have hcalR : ∀ e ∈ edgesL i ks rest, ∀ a, ((distribute sizes c
        (fun j' => if j' = s then
            (SumProduct.update sizes (pots i) ks (pots c.rootId) c.rootKeys (pots s) sks).2
          else if j' = c.rootId then
            (SumProduct.update sizes (pots i) ks (pots c.rootId) c.rootKeys (pots s) sks).1
          else pots j') vis).1 e.sepId) a =
        SumProduct.project sizes ((distribute sizes c
          (fun j' => if j' = s then
              (SumProduct.update sizes (pots i) ks (pots c.rootId) c.rootKeys (pots s) sks).2
            else if j' = c.rootId then
              (SumProduct.update sizes (pots i) ks (pots c.rootId) c.rootKeys (pots s) sks).1
            else pots j') vis).1 e.childId) e.childKeys e.sepKeys a := by
      intro e he a
      have hids := edgeL_ids_mem i ks rest e he
      rw [hpvOther e.sepId (hRC e.sepId hids.1) (fun h => hsR (h ▸ hids.1)),
        hpvOther e.childId (hRC e.childId hids.2) (fun h => hsR (h ▸ hids.2))]
      exact hcal e (by simp [edgesL, List.mem_cons, List.mem_append, he]) a
    obtain ⟨rA, rB, rC, rD, rE⟩ := distributeL_spec sizes i ks rest
      ((distribute sizes c
        (fun j' => if j' = s then
            (SumProduct.update sizes (pots i) ks (pots c.rootId) c.rootKeys (pots s) sks).2
          else if j' = c.rootId then
            (SumProduct.update sizes (pots i) ks (pots c.rootId) c.rootKeys (pots s) sks).1
          else pots j') vis).1)
      ((distribute sizes c
        (fun j' => if j' = s then
            (SumProduct.update sizes (pots i) ks (pots c.rootId) c.rootKeys (pots s) sks).2
          else if j' = c.rootId then
            (SumProduct.update sizes (pots i) ks (pots c.rootId) c.rootKeys (pots s) sks).1
          else pots j') vis).2)
      hsz hndiR hvisR hwfR hdepR hposR hcalR
    -- untouched-by-the-tail facts
    have hkeepS : (distributeL sizes i ks rest
      ((distribute sizes c
        (fun j' => if j' = s then
            (SumProduct.update sizes (pots i) ks (pots c.rootId) c.rootKeys (pots s) sks).2
          else if j' = c.rootId then
            (SumProduct.update sizes (pots i) ks (pots c.rootId) c.rootKeys (pots s) sks).1
          else pots j') vis).1)
      ((distribute sizes c
        (fun j' => if j' = s then
            (SumProduct.update sizes (pots i) ks (pots c.rootId) c.rootKeys (pots s) sks).2
          else if j' = c.rootId then
            (SumProduct.update sizes (pots i) ks (pots c.rootId) c.rootKeys (pots s) sks).1
          else pots j') vis).2)).1 s =
        (SumProduct.update sizes (pots i) ks (pots c.rootId) c.rootKeys (pots s) sks).2 := by
      rw [rA s (Or.inr hsR)]
      exact hpvS
    have hkeepRoot : (distributeL sizes i ks rest
      ((distribute sizes c
        (fun j' => if j' = s then
            (SumProduct.update sizes (pots i) ks (pots c.rootId) c.rootKeys (pots s) sks).2
          else if j' = c.rootId then
            (SumProduct.update sizes (pots i) ks (pots c.rootId) c.rootKeys (pots s) sks).1
          else pots j') vis).1)
      ((distribute sizes c
        (fun j' => if j' = s then
            (SumProduct.update sizes (pots i) ks (pots c.rootId) c.rootKeys (pots s) sks).2
          else if j' = c.rootId then
            (SumProduct.update sizes (pots i) ks (pots c.rootId) c.rootKeys (pots s) sks).1
          else pots j') vis).2)).1 c.rootId =
        (SumProduct.update sizes (pots i) ks (pots c.rootId) c.rootKeys (pots s) sks).1 := by
      rw [rA c.rootId (Or.inr (fun h => hRC c.rootId h hrootCa))]
      exact hpvRoot
    have hkeepI : (distributeL sizes i ks rest
      ((distribute sizes c
        (fun j' => if j' = s then
            (SumProduct.update sizes (pots i) ks (pots c.rootId) c.rootKeys (pots s) sks).2
          else if j' = c.rootId then
            (SumProduct.update sizes (pots i) ks (pots c.rootId) c.rootKeys (pots s) sks).1
          else pots j') vis).1)
      ((distribute sizes c
        (fun j' => if j' = s then
            (SumProduct.update sizes (pots i) ks (pots c.rootId) c.rootKeys (pots s) sks).2
          else if j' = c.rootId then
            (SumProduct.update sizes (pots i) ks (pots c.rootId) c.rootKeys (pots s) sks).1
          else pots j') vis).2)).1 i = pots i := by
      rw [rA i (Or.inl rfl)]
      exact hpvOther i hiC his
    have hkeepCsub : ∀ j ∈ allIds c, (distributeL sizes i ks rest
      ((distribute sizes c
        (fun j' => if j' = s then
            (SumProduct.update sizes (pots i) ks (pots c.rootId) c.rootKeys (pots s) sks).2
          else if j' = c.rootId then
            (SumProduct.update sizes (pots i) ks (pots c.rootId) c.rootKeys (pots s) sks).1
          else pots j') vis).1)
      ((distribute sizes c
        (fun j' => if j' = s then
            (SumProduct.update sizes (pots i) ks (pots c.rootId) c.rootKeys (pots s) sks).2
          else if j' = c.rootId then
            (SumProduct.update sizes (pots i) ks (pots c.rootId) c.rootKeys (pots s) sks).1
          else pots j') vis).2)).1 j =
        (distribute sizes c
          (fun j' => if j' = s then
              (SumProduct.update sizes (pots i) ks (pots c.rootId) c.rootKeys (pots s) sks).2
            else if j' = c.rootId then
              (SumProduct.update sizes (pots i) ks (pots c.rootId) c.rootKeys (pots s) sks).1
            else pots j') vis).1 j := by
      intro j hj
      exact rA j (Or.inr (fun h => hRC j h hj))
    refine ⟨?_, ?_, ?_, ?_, ?_⟩
    · intro j hj
      rcases hj with rfl | hj
      · exact hkeepI
      · simp only [allIdsL, List.mem_cons, List.mem_append, not_or] at hj
        rw [rA j (Or.inr hj.2.2)]
        rw [hpvOther j hj.2.1 hj.1]
    · intro j
      rw [rB j, dB j]
      simp [cliqueIdsL, List.mem_append, Bool.or_assoc]
    · intro p hp
      rcases List.mem_cons.mp hp with rfl | hp'
      · rw [hkeepI]
        exact hdepI
      · simp only [idKeysL, List.mem_cons, List.mem_append] at hp'
        rcases hp' with rfl | hp' | hp'
        · rw [hkeepS, hupd2]
          exact hdepNewSep
        · rw [hkeepCsub p.1 (mem_idKeys_mem_allIds c p hp')]
          exact dC p hp'
        · exact rC p (List.mem_cons_of_mem _ hp')
    · intro p hp
      rcases List.mem_cons.mp hp with rfl | hp'
      · rw [hkeepI]
        exact hposI
      · simp only [idKeysL, List.mem_cons, List.mem_append] at hp'
        rcases hp' with rfl | hp' | hp'
        · rw [hkeepS, hupd2]
          exact hposNewSep
        · rw [hkeepCsub p.1 (mem_idKeys_mem_allIds c p hp')]
          exact dD p hp'
        · exact rD p (List.mem_cons_of_mem _ hp')
    · intro e he
      simp only [edgesL, List.mem_cons, List.mem_append] at he
      rcases he with rfl | he | he
      · intro a
        simp only
        constructor
        · rw [hkeepS, hkeepI, hupd2]
        · rw [hkeepS, hkeepRoot]
          exact hchildCal a
      · intro a
        have hids := edge_ids_mem c e he
        have hparent : e.parentId ∈ allIds c := edge_parent_mem c e he
        rw [hkeepCsub e.sepId hids.1, hkeepCsub e.childId hids.2, hkeepCsub e.parentId hparent]
        exact dE e he a
      · exact rE e he

end

theorem hugin_spec (sizes : ℕ → ℕ) (t : JTree) (pots : Potentials)
    (hsz : ∀ k, 1 ≤ sizes k)
    (hnd : (allIds t).Nodup)
    (hwf : ∀ e ∈ edges t,
      (∀ k ∈ e.sepKeys, k ∈ e.parentKeys) ∧ (∀ k ∈ e.sepKeys, k ∈ e.childKeys))
    (hdep : ∀ p ∈ idKeys t, DependsOnlyOn p.2 (pots p.1))
    (hpos : ∀ p ∈ idKeys t, ∀ a, 0 < pots p.1 a) :
    (∀ j, j ∉ allIds t → hugin sizes t pots j = pots j) ∧
    (∀ p ∈ idKeys t, DependsOnlyOn p.2 (hugin sizes t pots p.1)) ∧
    (∀ p ∈ idKeys t, ∀ a, 0 < hugin sizes t pots p.1 a) ∧
    (∀ e ∈ edges t, ∀ a,
      hugin sizes t pots e.sepId a =
        SumProduct.project sizes (hugin sizes t pots e.parentId) e.parentKeys e.sepKeys a ∧
      SumProduct.project sizes (hugin sizes t pots e.childId) e.childKeys e.sepKeys a =
        hugin sizes t pots e.sepId a) := by
  obtain ⟨cA, cB, cC, cD, cE⟩ := collect_spec sizes t pots (fun _ => false) hsz hnd
    (fun j _ => rfl) hwf hdep hpos
  obtain ⟨dA, dB, dC, dD, dE⟩ := distribute_spec sizes t (collect sizes t pots (fun _ => false)).1
    (fun _ => false) hsz hnd (fun j _ => rfl) hwf cC cD cE
  refine ⟨?_, ?_, ?_, ?_⟩
  · intro j hj
    unfold hugin
    rw [dA j (Or.inr hj)]
    exact cA j hj
  · intro p hp
    exact dC p hp
  · intro p hp
    exact dD p hp
  · intro e he
    exact dE e he

theorem huginForest_spec (sizes : ℕ → ℕ) (trees : List JTree) (pots : Potentials)
    (hsz : ∀ k, 1 ≤ sizes k)
    (hnd : (trees.flatMap allIds).Nodup)
    (hwf : ∀ t ∈ trees, ∀ e ∈ edges t,
      (∀ k ∈ e.sepKeys, k ∈ e.parentKeys) ∧ (∀ k ∈ e.sepKeys, k ∈ e.childKeys))
    (hdep : ∀ t ∈ trees, ∀ p ∈ idKeys t, DependsOnlyOn p.2 (pots p.1))
    (hpos : ∀ t ∈ trees, ∀ p ∈ idKeys t, ∀ a, 0 < pots p.1 a) :
    (∀ j, j ∉ trees.flatMap allIds → huginForest sizes trees pots j = pots j) ∧
    (∀ t ∈ trees, ∀ e ∈ edges t, ∀ a,
      huginForest sizes trees pots e.sepId a =
        SumProduct.project sizes (huginForest sizes trees pots e.parentId)
          e.parentKeys e.sepKeys a ∧
      SumProduct.project sizes (huginForest sizes trees pots e.childId)
          e.childKeys e.sepKeys a = huginForest sizes trees pots e.sepId a) := by
  induction trees generalizing pots with
  | nil =>
    exact ⟨fun j _ => rfl, fun t ht => absurd ht (List.not_mem_nil t)⟩
  | cons t ts ih =>
    have hnd' : (allIds t ++ ts.flatMap allIds).Nodup := by simpa using hnd
    obtain ⟨hndT, hndTs, hdisj⟩ := List.nodup_append.mp hnd'
    obtain ⟨hA, hC, hD, hE⟩ := hugin_spec sizes t pots hsz hndT
      (hwf t (List.mem_cons_self _ _)) (hdep t (List.mem_cons_self _ _))
      (hpos t (List.mem_cons_self _ _))
    have hfold : huginForest sizes (t :: ts) pots = huginForest sizes ts (hugin sizes t pots) := rfl
    have hdepTs : ∀ u ∈ ts, ∀ p ∈ idKeys u, DependsOnlyOn p.2 (hugin sizes t pots p.1) := by
      intro u hu p hp
      rw [hA p.1 (fun hmem => hdisj hmem
        (List.mem_flatMap.mpr ⟨u, hu, mem_idKeys_mem_allIds u p hp⟩))]
      exact hdep u (List.mem_cons_of_mem _ hu) p hp
    have hposTs : ∀ u ∈ ts, ∀ p ∈ idKeys u, ∀ a, 0 < hugin sizes t pots p.1 a := by
      intro u hu p hp
      rw [hA p.1 (fun hmem => hdisj hmem
        (List.mem_flatMap.mpr ⟨u, hu, mem_idKeys_mem_allIds u p hp⟩))]
      exact hpos u (List.mem_cons_of_mem _ hu) p hp
    obtain ⟨ihA, ihE⟩ := ih (hugin sizes t pots) hndTs
      (fun u hu => hwf u (List.mem_cons_of_mem _ hu)) hdepTs hposTs
    have hkeepT : ∀ j ∈ allIds t, huginForest sizes ts (hugin sizes t pots) j =
        hugin sizes t pots j := by
      intro j hj
      exact ihA j (fun hmem => hdisj hj hmem)
    rw [hfold]
    refine ⟨?_, ?_⟩
    · intro j hj
      simp only [List.flatMap_cons, List.mem_append, not_or] at hj
      rw [ihA j hj.2]
      exact hA j hj.1
    · intro u hu e he
      rcases List.mem_cons.mp hu with rfl | hu'
      · intro a
        have hsep := edge_ids_mem u e he
        have hpar := edge_parent_mem u e he
        rw [hkeepT e.sepId hsep.1, hkeepT e.childId hsep.2, hkeepT e.parentId hpar]
        exact hE e he a
      · exact ihE u hu' e he

mutual

theorem collect_calibrated_fix (sizes : ℕ → ℕ) (t : JTree) (potsRef pots : Potentials)
    (vis : ℕ → Bool)
    (hcal : ∀ e ∈ edges t, ∀ a, potsRef e.sepId a =
      SumProduct.project sizes (potsRef e.childId) e.childKeys e.sepKeys a)
    (hnz : ∀ e ∈ edges t, ∀ a, potsRef e.sepId a ≠ 0)
    (hinv : ∀ j a, pots j a = potsRef j a) :
    ∀ j a, (collect sizes t pots vis).1 j a = potsRef j a := by
  cases t with
  | node i ks cs =>
    have h := collectL_calibrated_fix sizes i ks cs potsRef pots
      (fun j' => if j' = i then true else vis j')
      (by simpa [edges] using hcal) (by simpa [edges] using hnz) hinv
    simpa [collect] using h

theorem collectL_calibrated_fix (sizes : ℕ → ℕ) (i : ℕ) (ks : List ℕ)
    (cs : List (ℕ × List ℕ × JTree)) (potsRef pots : Potentials) (vis : ℕ → Bool)
    (hcal : ∀ e ∈ edgesL i ks cs, ∀ a, potsRef e.sepId a =
      SumProduct.project sizes (potsRef e.childId) e.childKeys e.sepKeys a)
    (hnz : ∀ e ∈ edgesL i ks cs, ∀ a, potsRef e.sepId a ≠ 0)
    (hinv : ∀ j a, pots j a = potsRef j a) :
    ∀ j a, (collectL sizes i ks cs pots vis).1 j a = potsRef j a := by
  cases cs with
  | nil => simpa [collectL] using hinv
  | cons hd rest =>
    obtain ⟨s, sks, c⟩ := hd
    by_cases hv : vis c.rootId
    · have hstep : collectL sizes i ks ((s, sks, c) :: rest) pots vis =
          collectL sizes i ks rest pots vis := by
        simp [collectL, hv]
      rw [hstep]
      exact collectL_calibrated_fix sizes i ks rest potsRef pots vis
        (fun e he => hcal e (by simp [edgesL, List.mem_cons, List.mem_append, he]))
        (fun e he => hnz e (by simp [edgesL, List.mem_cons, List.mem_append, he])) hinv
    · have hv' : vis c.rootId = false := by simpa using hv
      have hstep : collectL sizes i ks ((s, sks, c) :: rest) pots vis =
          collectL sizes i ks rest
            (fun j => if j = s then
                (SumProduct.update sizes ((collect sizes c pots vis).1 c.rootId) c.rootKeys
                  ((collect sizes c pots vis).1 i) ks ((collect sizes c pots vis).1 s) sks).2
              else if j = i then
                (SumProduct.update sizes ((collect sizes c pots vis).1 c.rootId) c.rootKeys
                  ((collect sizes c pots vis).1 i) ks ((collect sizes c pots vis).1 s) sks).1
              else (collect sizes c pots vis).1 j)
            (collect sizes c pots vis).2 := by
        simp only [collectL, hv', Bool.false_eq_true, if_false]
      rw [hstep]
      have hc : ∀ j a, (collect sizes c pots vis).1 j a = potsRef j a :=
        collect_calibrated_fix sizes c potsRef pots vis
          (fun e he => hcal e (by simp [edgesL, List.mem_cons, List.mem_append, he]))
          (fun e he => hnz e (by simp [edgesL, List.mem_cons, List.mem_append, he])) hinv
      have hcalTop : ∀ a, potsRef s a =
          SumProduct.project sizes (potsRef c.rootId) c.rootKeys sks a :=
        hcal ⟨i, ks, s, sks, c.rootId, c.rootKeys⟩ (by simp [edgesL])
      have hnzTop : ∀ a, potsRef s a ≠ 0 :=
        hnz ⟨i, ks, s, sks, c.rootId, c.rootKeys⟩ (by simp [edgesL])
      have hnewSepP : ∀ a,
          SumProduct.project sizes ((collect sizes c pots vis).1 c.rootId) c.rootKeys sks a =
          potsRef s a := by
        intro a
        rw [project_congr sizes c.rootKeys sks (fun b => hc c.rootId b) a]
        exact (hcalTop a).symm
      have hnewSep : ∀ a,
          (SumProduct.update sizes ((collect sizes c pots vis).1 c.rootId) c.rootKeys
            ((collect sizes c pots vis).1 i) ks ((collect sizes c pots vis).1 s) sks).2 a =
          potsRef s a := fun a => hnewSepP a
      have hnzOld : ∀ a, (collect sizes c pots vis).1 s a ≠ 0 := by
        intro a
        rw [hc s a]
        exact hnzTop a
      have hnewC : ∀ a,
          (SumProduct.update sizes ((collect sizes c pots vis).1 c.rootId) c.rootKeys
            ((collect sizes c pots vis).1 i) ks ((collect sizes c pots vis).1 s) sks).1 a =
          potsRef i a := by
        intro a
        show SumProduct.absorb sizes ((collect sizes c pots vis).1 i) ks
          ((collect sizes c pots vis).1 s) _ sks a = _
        rw [absorb_of_no_zero sizes _ ks _ _ sks hnzOld]
        simp only
        rw [hnewSepP a, hc s a, hc i a, div_self (hnzTop a), one_mul]
      have hinv2 : ∀ j a, (fun j' => if j' = s then
          (SumProduct.update sizes ((collect sizes c pots vis).1 c.rootId) c.rootKeys
            ((collect sizes c pots vis).1 i) ks ((collect sizes c pots vis).1 s) sks).2
        else if j' = i then
          (SumProduct.update sizes ((collect sizes c pots vis).1 c.rootId) c.rootKeys
            ((collect sizes c pots vis).1 i) ks ((collect sizes c pots vis).1 s) sks).1
        else (collect sizes c pots vis).1 j') j a = potsRef j a := by
        intro j a
        by_cases hjs : j = s
        · subst hjs
          simp only [if_pos rfl]
          exact hnewSep a
        · by_cases hji : j = i
          · subst hji
            simp only [if_neg hjs, if_pos rfl]
            exact hnewC a
          · simp only [if_neg hjs, if_neg hji]
            exact hc j a
      exact collectL_calibrated_fix sizes i ks rest potsRef _ _
        (fun e he => hcal e (by simp [edgesL, List.mem_cons, List.mem_append, he]))
        (fun e he => hnz e (by simp [edgesL, List.mem_cons, List.mem_append, he])) hinv2

end

mutual

theorem distribute_calibrated_fix (sizes : ℕ → ℕ) (t : JTree) (potsRef pots : Potentials)
    (vis : ℕ → Bool)
    (hcal : ∀ e ∈ edges t, ∀ a, potsRef e.sepId a =
      SumProduct.project sizes (potsRef e.parentId) e.parentKeys e.sepKeys a)
    (hnz : ∀ e ∈ edges t, ∀ a, potsRef e.sepId a ≠ 0)
    (hinv : ∀ j a, pots j a = potsRef j a) :
    ∀ j a, (distribute sizes t pots vis).1 j a = potsRef j a := by
  cases t with
  | node i ks cs =>
    have h := distributeL_calibrated_fix sizes i ks cs potsRef pots
      (fun j' => if j' = i then true else vis j')
      (by simpa [edges] using hcal) (by simpa [edges] using hnz) hinv
    simpa [distribute] using h

theorem distributeL_calibrated_fix (sizes : ℕ → ℕ) (i : ℕ) (ks : List ℕ)
    (cs : List (ℕ × List ℕ × JTree)) (potsRef pots : Potentials) (vis : ℕ → Bool)
    (hcal : ∀ e ∈ edgesL i ks cs, ∀ a, potsRef e.sepId a =
      SumProduct.project sizes (potsRef e.parentId) e.parentKeys e.sepKeys a)
    (hnz : ∀ e ∈ edgesL i ks cs, ∀ a, potsRef e.sepId a ≠ 0)
    (hinv : ∀ j a, pots j a = potsRef j a) :
    ∀ j a, (distributeL sizes i ks cs pots vis).1 j a = potsRef j a := by
  cases cs with
  | nil => simpa [distributeL] using hinv
  | cons hd rest =>
    obtain ⟨s, sks, c⟩ := hd
    by_cases hv : vis c.rootId
    · have hstep : distributeL sizes i ks ((s, sks, c) :: rest) pots vis =
          distributeL sizes i ks rest pots vis := by
        simp [distributeL, hv]
      rw [hstep]
      exact distributeL_calibrated_fix sizes i ks rest potsRef pots vis
        (fun e he => hcal e (by simp [edgesL, List.mem_cons, List.mem_append, he]))
        (fun e he => hnz e (by simp [edgesL, List.mem_cons, List.mem_append, he])) hinv
    · have hv' : vis c.rootId = false := by simpa using hv
      have hstep : distributeL sizes i ks ((s, sks, c) :: rest) pots vis =
          distributeL sizes i ks rest
            (distribute sizes c
              (fun j => if j = s then
                  (SumProduct.update sizes (pots i) ks (pots c.rootId) c.rootKeys (pots s) sks).2
                else if j = c.rootId then
                  (SumProduct.update sizes (pots i) ks (pots c.rootId) c.rootKeys (pots s) sks).1
                else pots j) vis).1
            (distribute sizes c
              (fun j => if j = s then
                  (SumProduct.update sizes (pots i) ks (pots c.rootId) c.rootKeys (pots s) sks).2
                else if j = c.rootId then
                  (SumProduct.update sizes (pots i) ks (pots c.rootId) c.rootKeys (pots s) sks).1
                else pots j) vis).2 := by
        simp only [distributeL, hv', Bool.false_eq_true, if_false]
      rw [hstep]
      have hcalTop : ∀ a, potsRef s a =
          SumProduct.project sizes (potsRef i) ks sks a :=
        hcal ⟨i, ks, s, sks, c.rootId, c.rootKeys⟩ (by simp [edgesL])
      have hnzTop : ∀ a, potsRef s a ≠ 0 :=
        hnz ⟨i, ks, s, sks, c.rootId, c.rootKeys⟩ (by simp [edgesL])
      have hnewSepP : ∀ a,
          SumProduct.project sizes (pots i) ks sks a = potsRef s a := by
        intro a
        rw [project_congr sizes ks sks (fun b => hinv i b) a]
        exact (hcalTop a).symm
      have hnewSep : ∀ a,
          (SumProduct.update sizes (pots i) ks (pots c.rootId) c.rootKeys (pots s) sks).2 a =
          potsRef s a := fun a => hnewSepP a
      have hnzOld : ∀ a, pots s a ≠ 0 := by
        intro a
        rw [hinv s a]
        exact hnzTop a
      have hnewC : ∀ a,
          (SumProduct.update sizes (pots i) ks (pots c.rootId) c.rootKeys (pots s) sks).1 a =
          potsRef c.rootId a := by
        intro a
        show SumProduct.absorb sizes (pots c.rootId) c.rootKeys (pots s) _ sks a = _
        rw [absorb_of_no_zero sizes _ c.rootKeys _ _ sks hnzOld]
        simp only
        rw [hnewSepP a, hinv s a, hinv c.rootId a, div_self (hnzTop a), one_mul]
      have hinv1 : ∀ j a, (fun j' => if j' = s then
          (SumProduct.update sizes (pots i) ks (pots c.rootId) c.rootKeys (pots s) sks).2
        else if j' = c.rootId then
          (SumProduct.update sizes (pots i) ks (pots c.rootId) c.rootKeys (pots s) sks).1
        else pots j') j a = potsRef j a := by
        intro j a
        by_cases hjs : j = s
        · subst hjs
          simp only [if_pos rfl]
          exact hnewSep a
        · by_cases hjr : j = c.rootId
          · subst hjr
            simp only [if_neg hjs, if_pos rfl]
            exact hnewC a
          · simp only [if_neg hjs, if_neg hjr]
            exact hinv j a
      have hc : ∀ j a, (distribute sizes c
          (fun j' => if j' = s then
              (SumProduct.update sizes (pots i) ks (pots c.rootId) c.rootKeys (pots s) sks).2
            else if j' = c.rootId then
              (SumProduct.update sizes (pots i) ks (pots c.rootId) c.rootKeys (pots s) sks).1
            else pots j') vis).1 j a = potsRef j a :=
        distribute_calibrated_fix sizes c potsRef _ vis
          (fun e he => hcal e (by simp [edgesL, List.mem_cons, List.mem_append, he]))
          (fun e he => hnz e (by simp [edgesL, List.mem_cons, List.mem_append, he])) hinv1
      exact distributeL_calibrated_fix sizes i ks rest potsRef _ _
        (fun e he => hcal e (by simp [edgesL, List.mem_cons, List.mem_append, he]))
        (fun e he => hnz e (by simp [edgesL, List.mem_cons, List.mem_append, he])) hc

end

theorem hugin_calibrated_fix (sizes : ℕ → ℕ) (t : JTree) (pots : Potentials)
    (hcalC : ∀ e ∈ edges t, ∀ a, pots e.sepId a =
      SumProduct.project sizes (pots e.childId) e.childKeys e.sepKeys a)
    (hcalP : ∀ e ∈ edges t, ∀ a, pots e.sepId a =
      SumProduct.project sizes (pots e.parentId) e.parentKeys e.sepKeys a)
    (hnz : ∀ e ∈ edges t, ∀ a, pots e.sepId a ≠ 0) :
    ∀ j a, hugin sizes t pots j a = pots j a := by
  intro j a
  unfold hugin
  have hcoll : ∀ j' a', (collect sizes t pots (fun _ => false)).1 j' a' = pots j' a' :=
    collect_calibrated_fix sizes t pots pots (fun _ => false) hcalC hnz (fun _ _ => rfl)
  exact distribute_calibrated_fix sizes t pots (collect sizes t pots (fun _ => false)).1
    (fun _ => false) hcalP hnz hcoll j a

theorem dictGet_cons (p : ℕ × ℕ) (d : List (ℕ × ℕ)) (k : ℕ) :
    dictGet (p :: d) k = if p.1 = k then some p.2 else dictGet d k := by
  unfold dictGet
  by_cases h : p.1 = k
  · rw [List.find?_cons_of_pos _ (by simpa using h), if_pos h]
    rfl
  · rw [List.find?_cons_of_neg _ (by simpa using h), if_neg h]

theorem dictGet_map_set (d : List (ℕ × ℕ)) (k v : ℕ) :
    dictGet (d.map (fun p => if p.1 = k then (k, v) else p)) k =
      if d.any (fun p => p.1 = k) then some v else none := by
  induction d with
  | nil => simp [dictGet]
  | cons p rest ih =>
    rw [List.map_cons]
    by_cases hp : p.1 = k
    · rw [if_pos hp, dictGet_cons]
      simp [hp]
    · rw [if_neg hp, dictGet_cons, if_neg hp, ih]
      have hd : decide (p.1 = k) = false := by simp [hp]
      rw [List.any_cons, hd, Bool.false_or]

theorem dictGet_append_single (d : List (ℕ × ℕ)) (k v : ℕ)
    (h : d.any (fun p => p.1 = k) = false) :
    dictGet (d ++ [(k, v)]) k = some v := by
  induction d with
  | nil => simp [dictGet]
  | cons p rest ih =>
    have hall : ∀ q ∈ p :: rest, ¬ q.1 = k := fun q hq => by
      have := List.any_eq_false.mp h q hq
      simpa using this
    rw [List.cons_append, dictGet_cons, if_neg (hall p (List.mem_cons_self _ _))]
    exact ih (List.any_eq_false.mpr (fun q hq => by
      simpa using hall q (List.mem_cons_of_mem _ hq)))

theorem dictGet_dictSet_self (d : List (ℕ × ℕ)) (k v : ℕ) :
    dictGet (dictSet d k v) k = some v := by
  unfold dictSet
  split
  · rename_i hany
    rw [dictGet_map_set, if_pos (by simpa using hany)]
  · rename_i hany
    have hfalse : (d.any fun p => decide (p.1 = k)) = false := by
      cases hb : d.any fun p => decide (p.1 = k)
      · rfl
      · exact absurd hb hany
    exact dictGet_append_single d k v hfalse

theorem dictGet_map_set_other (d : List (ℕ × ℕ)) (k v k' : ℕ) (hne : k' ≠ k) :
    dictGet (d.map (fun p => if p.1 = k then (k, v) else p)) k' = dictGet d k' := by
  induction d with
  | nil => rfl
  | cons p rest ih =>
    rw [List.map_cons]
    by_cases hp : p.1 = k
    · rw [if_pos hp, dictGet_cons, dictGet_cons, if_neg (by simpa using Ne.symm hne),
        if_neg (by rw [hp]; exact Ne.symm hne)]
      exact ih
    · rw [if_neg hp, dictGet_cons, dictGet_cons]
      by_cases hpk : p.1 = k'
      · rw [if_pos hpk, if_pos hpk]
      · rw [if_neg hpk, if_neg hpk]
        exact ih

theorem dictGet_append_single_other (d : List (ℕ × ℕ)) (k v k' : ℕ) (hne : k' ≠ k) :
    dictGet (d ++ [(k, v)]) k' = dictGet d k' := by
  induction d with
  | nil => simp [dictGet, Ne.symm hne]
  | cons p rest ih =>
    rw [List.cons_append, dictGet_cons, dictGet_cons]
    by_cases hpk : p.1 = k'
    · rw [if_pos hpk, if_pos hpk]
    · rw [if_neg hpk, if_neg hpk]
      exact ih

theorem dictGet_dictSet_other (d : List (ℕ × ℕ)) (k v k' : ℕ) (hne : k' ≠ k) :
    dictGet (dictSet d k v) k' = dictGet d k' := by
  unfold dictSet
  split
  · exact dictGet_map_set_other d k v k' hne
  · exact dictGet_append_single_other d k v k' hne

theorem tombstone_previous_length (store : EntryStore) (finder : List (ℕ × ℕ)) (var : ℕ) :
    (tombstone_previous store finder var).length = store.length := by
  unfold tombstone_previous
  split
  · simp
  · rfl

theorem update_heap_step_state (rem_vars : List ℕ) (graph_edges : List (ℕ × ℕ))
    (var_sizes : ℕ → ℕ) (st st' : HeapState) (v : ℕ)
    (h : update_heap_step rem_vars graph_edges var_sizes st v = .ok st') :
    st'.store.length = st.store.length + 1 ∧
    st'.entry_finder = dictSet st.entry_finder v st.store.length := by
  simp only [update_heap_step] at h
  split at h
  · split at h
    · cases h
    · rename_i heap1 hpush
      injection h with h2
      subst h2
      refine ⟨?_, rfl⟩
      show (tombstone_previous (st.store ++ _) st.entry_finder v).length = _
      rw [tombstone_previous_length]
      simp
  · cases h

theorem update_heap_go_fresh (full : List ℕ) (graph_edges : List (ℕ × ℕ)) (var_sizes : ℕ → ℕ)
    (n : ℕ) :
    ∀ (vs : List ℕ) (st st' : HeapState),
      update_heap.go full graph_edges var_sizes vs st = .ok st' →
      n ≤ st.store.length →
      (∀ v ∈ vs, entry_is_fresh n (dictGet st'.entry_finder v) = true) ∧
      (∀ v, entry_is_fresh n (dictGet st.entry_finder v) = true →
        entry_is_fresh n (dictGet st'.entry_finder v) = true) ∧
      n ≤ st'.store.length := by
  intro vs
  induction vs with
  | nil =>
    intro st st' h hn
    simp only [update_heap.go, Except.ok.injEq] at h
    subst h
    exact ⟨fun v hv => absurd hv (List.not_mem_nil v), fun v hv => hv, hn⟩
  | cons v vs ih =>
    intro st st' h hn
    simp only [update_heap.go] at h
    split at h
    · cases h
    · rename_i st1 hstep
      obtain ⟨hlen, hfinder⟩ := update_heap_step_state full graph_edges var_sizes st st1 v hstep
      have hn1 : n ≤ st1.store.length := by omega
      obtain ⟨ihA, ihB, ihC⟩ := ih st1 st' h hn1
      refine ⟨?_, ?_, ihC⟩
      · intro w hw
        rcases List.mem_cons.mp hw with rfl | hw'
        · apply ihB
          rw [hfinder, dictGet_dictSet_self]
          simp [entry_is_fresh, hn]
        · exact ihA w hw'
      · intro w hw
        apply ihB
        by_cases hwv : w = v
        · subst hwv
          rw [hfinder, dictGet_dictSet_self]
          simp [entry_is_fresh, hn]
        · rw [hfinder, dictGet_dictSet_other _ _ _ _ hwv]
          exact hw

theorem update_heap_fresh (rem_vars : List ℕ) (graph_edges : List (ℕ × ℕ))
    (var_sizes : ℕ → ℕ) (st st' : HeapState)
    (h : update_heap rem_vars graph_edges var_sizes st = .ok st') :
    ∀ v ∈ rem_vars, entry_is_fresh st.store.length (dictGet st'.entry_finder v) = true := by
  have := update_heap_go_fresh rem_vars graph_edges var_sizes st.store.length rem_vars st st'
    (by simpa [update_heap] using h) (le_refl _)
  exact this.1

/-- C7: the spec says that after the selected key `v` is removed, only
`v`'s former neighbors are re-scored in the priority queue.  AMENDED: the
code re-scores EVERY still-remaining variable — after a successful
`remove_next`, every variable of the returned remaining list holds a
freshly pushed entry in the finder, regardless of its adjacency to the
popped variable (`update_heap` is called on the whole remaining list,
bp.py line 378). -/
theorem C7_rescores_all_amended (st : HeapState) (remaining_vars : List ℕ)
    (var_sizes : ℕ → ℕ) (graph_edges : List (ℕ × ℕ)) (entry : List PyVal)
    (st' : HeapState) (remaining' : List ℕ)
    (h : remove_next st remaining_vars var_sizes graph_edges = .ok (entry, st', remaining')) :
    ∀ v ∈ remaining', entry_is_fresh st.store.length (dictGet st'.entry_finder v) = true := by
  unfold remove_next at h
  split at h
  · cases h
  · rename_i entry0 heap' hpop
    dsimp only [] at h
    split at h
    · cases h
    · split at h
      · split at h
        · cases h
        · rename_i st2 hupd
          injection h with h2
          injection h2 with he h3
          injection h3 with hst hrem
          subst he
          subst hst
          subst hrem
          intro v hv
          exact update_heap_fresh _ graph_edges var_sizes
            ⟨st.store, heap', dictDel st.entry_finder (entryVar entry0)⟩ st2 hupd v hv
      · cases h

set_option maxHeartbeats 1000000 in
/-- C7 witness: on the concrete run from `stC7` (no graph edges, so the
popped key 0 has no former neighbors at all), key 1 nevertheless ends up
re-scored with a fresh finder entry. -/
theorem C7_witness :
    entry_is_fresh stC7.store.length (dictGet stC7'.entry_finder 1) = true :=
  C7_rescores_all_amended stC7 [0, 1] sizesC7 [] entryC7 stC7' [1]
    (by
      simp [remove_next, remove_next_pop, heappop, heap_siftup_loop, heap_siftdown_loop,
        heap_siftdown, heappush, entryAt, entryVar, dictGet, dictDel, dictSet,
        update_heap, update_heap.go, update_heap_step, tombstone_previous,
        pyListLt, pyLt, pyValEq, pyPairMem, stC7, stC7', entryC7, sizesC7]
      rfl)
    1 (by simp)

set_option maxHeartbeats 1000000 in
/-- C7 counterexample to the original claim: in the concrete run from
`stC7` over an edgeless graph, the popped key 0 has NO former neighbors
(the neighbor-set of every other key is unchanged), yet key 1 is
re-scored — its finder entry points at the freshly pushed reference 2,
and its old entry is tombstoned inside `stC7'`. -/
theorem C7_counterexample :
    remove_next stC7 [0, 1] sizesC7 [] = .ok (entryC7, stC7', [1]) ∧
    former_neighbors [] [1] (entryVar entryC7) = [] ∧
    entry_is_fresh stC7.store.length (dictGet stC7'.entry_finder 1) = true := by
  refine ⟨?_, rfl, rfl⟩
  simp [remove_next, remove_next_pop, heappop, heap_siftup_loop, heap_siftdown_loop,
    heap_siftdown, heappush, entryAt, entryVar, dictGet, dictDel, dictSet,
    update_heap, update_heap.go, update_heap_step, tombstone_previous,
    pyListLt, pyLt, pyValEq, pyPairMem, stC7, stC7', entryC7, sizesC7]
  rfl

theorem py_subsetL_iff (s1 s2 : List ℕ) :
    py_subsetL s1 s2 = true ↔ s1.toFinset ⊆ s2.toFinset := by
  simp [py_subsetL, Finset.subset_iff, List.all_eq_true]

theorem py_properSubsetL_iff (s1 s2 : List ℕ) :
    py_properSubsetL s1 s2 = true ↔ s1.toFinset ⊂ s2.toFinset := by
  rw [Finset.ssubset_def]
  simp [py_properSubsetL, py_subsetL_iff, Bool.eq_false_iff]

/-- C8: the spec says `identify_cliques` keeps exactly the clusters not a
subset of ANY OTHER cluster, removing duplicates.  AMENDED: the code's
filter uses the STRICT subset test against all clusters (including
itself), so a cluster is kept iff it is not a PROPER subset of some
cluster — equal duplicates are all retained.  Each kept cluster is the
ascending listing of its key set, in original order (so its clique id is
its position in the filtered list). -/
theorem C8_identify_amended (induced_clusters : List (List ℕ)) :
    identify_cliques induced_clusters =
      (induced_clusters.map pySetAsc).filter
        (fun s1 => decide (∀ s2 ∈ induced_clusters.map pySetAsc,
          ¬ s1.toFinset ⊂ s2.toFinset)) := by
  unfold identify_cliques
  apply List.filter_congr
  intro s1 _
  rw [Bool.eq_iff_iff]
  simp [py_properSubsetL_iff]

/-- C8 counterexample: on the duplicate input `[[0], [0]]` the code keeps
both copies, while the spec's filter (drop any cluster that is a subset
of another position's cluster) removes both. -/
theorem C8_counterexample :
    identify_cliques [[0], [0]] = [[0], [0]] ∧
    spec_identify_cliques [[0], [0]] = [] := by
  constructor
  · rfl
  · rfl

/-- C3: the spec says `absorb` forms the pointwise ratio, zero exactly
where the old separator entry is zero.  AMENDED: the guard
`np.all(sep_pot) == 0` fires when ANY entry of the old separator tensor
is zero, and then the WHOLE result is zero; only when every entry of the
old separator is nonzero does the result agree with the spec's pointwise
ratio form. -/
theorem C3_absorb_amended (sizes : ℕ → ℕ) (c : Pot) (cv : List ℕ) (old new : Pot)
    (sv : List ℕ) :
    ((∃ a0 ∈ gridAsgs sizes sv, old a0 = 0) →
      ∀ a, SumProduct.absorb sizes c cv old new sv a = 0) ∧
    ((∀ a0 ∈ gridAsgs sizes sv, old a0 ≠ 0) →
      ∀ a, SumProduct.absorb sizes c cv old new sv a = spec_absorb c old new a) := by
  constructor
  · rintro ⟨a0, ha, hz⟩ a
    rw [absorb_of_grid_zero sizes c cv old new sv a0 ha hz]
  · intro h a
    unfold SumProduct.absorb spec_absorb
    rw [if_neg]
    · by_cases hza : old a = 0
      · simp [hza]
      · simp [hza]
    · simp only [List.any_eq_true, not_exists, not_and, decide_eq_true_eq]
      intro b hb
      exact h b hb
  
/-- C3 witness: instantiating the amended theorem on the concrete
separator `[1, 0]` over key 0 (a zero in its grid) zeroes the clique
potential at EVERY point, including the point where the old separator is
1. -/
theorem C3_witness :
    SumProduct.absorb sizes2 cl3 [0] old3 new3 [0] asg0 = 0 :=
  (C3_absorb_amended sizes2 cl3 [0] old3 new3 [0]).1
    ⟨setVar asg0 0 1,
      by simp only [gridAsgs, sizes2, List.range_succ]; simp; exact Or.inr rfl,
      by norm_num [old3, setVar]⟩ asg0

/-- C3 counterexample: with clique `[5, 7]`, old separator `[1, 0]` and
new separator `[3, 0]` over key 0, the code returns 0 at the assignment
where the old separator is 1, while the spec's pointwise form returns
`(3 / 1) * 5 = 15` there. -/
theorem C3_counterexample :
    SumProduct.absorb sizes2 cl3 [0] old3 new3 [0] asg0 = 0 ∧
    spec_absorb cl3 old3 new3 asg0 = 15 := by
  constructor
  · rw [absorb_of_grid_zero sizes2 cl3 [0] old3 new3 [0] (setVar asg0 0 1)
      (by simp only [gridAsgs, sizes2, List.range_succ]; simp; exact Or.inr rfl)
      (by norm_num [old3, setVar])]
  · norm_num [spec_absorb, cl3, old3, new3, asg0]

/-- C5: the spec-implied claim is that every `JunctionTree.propagate`
call on a non-empty structure raises TypeError.  AMENDED: that holds for
the no-evidence paths (`data` is `None` or empty, so the hugin loop runs
and calls `bp.hugin` with 5 positional arguments against 4 parameters);
with non-empty evidence, `observe` fails FIRST with a different error
(AttributeError from the nonexistent `bp.get_clique_of_key`, or KeyError
for an unknown label), so TypeError is not raised on those calls. -/
theorem C5_propagate_amended (sizes : ℕ → ℕ) (labels : List ℕ) (t : JTree)
    (rest : List JTree) (potentials : Potentials) (data : Option (List (ℕ × ℕ)))
    (hdata : data = none ∨ data = some []) :
    jt_propagate sizes labels (t :: rest) potentials data = .error .typeError := by
  rcases hdata with rfl | rfl <;>
    simp [jt_propagate, jt_propagate_loop, call_bp_hugin, propagate_hugin_arg_count,
      hugin_param_count]

/-- C5 witness: the concrete no-evidence call on the one-tree structure
`[treeB]` raises TypeError. -/
theorem C5_witness :
    jt_propagate sizes2 [0] [treeB] potsOnes none = .error .typeError :=
  C5_propagate_amended sizes2 [0] treeB [] potsOnes none (Or.inl rfl)

/-- C5 counterexample to the unqualified claim: with non-empty evidence
on a non-empty structure, `propagate` raises AttributeError (from
`observe`'s reference to the nonexistent `bp.get_clique_of_key`), not
TypeError. -/
theorem C5_counterexample :
    jt_propagate sizes2 [0] [treeB] potsB (some [(0, 1)]) = .error .attributeError := by
  rfl

/-- C2: the spec says a disconnected factor graph yields a Forest with one
tree per connected component.  CODE BUG: `construct_junction_tree` always
runs its merge loop until `len(cliques) - 1` separators are inserted; on
the two disjoint cliques `[[0], [1]]` there are no candidate sepsets, the
sepset heap is empty, and the very first `heappop` raises IndexError
instead of returning the two single-clique trees. -/
theorem C2_theorem :
    construct_junction_tree [[0], [1]] sizes2 = .error .indexError := by
  rfl

/-- C6: the spec says `find_triangulation` always terminates cleanly on
well-formed input.  CODE BUG: `update_heap` evaluates
`(set(edge) - set(var)).pop()` where `var` is an integer key, and
`set(var)` raises `TypeError: 'int' object is not iterable` as soon as
any variable has a remaining neighbor; the single two-key factor
`[[0, 1]]` over known keys 0, 1 fails immediately. -/
theorem C6_theorem :
    find_triangulation [[0, 1]] [0, 1] sizes2 = .error .typeError := by
  rfl

/-- C9: the spec says `marginalize` returns a vector of the key's domain
size.  CODE BUG: `marginalize` passes `m_keys[key_ix]` — a bare int — as
the output-subscripts argument of `np.einsum`, which raises
`TypeError: 'int' object is not iterable`; the surrounding
`except ValueError` does not catch it, so even the minimal consistent
single-clique tree fails. -/
theorem C9_theorem :
    jt_marginalize sizes2 [0] [0] [(0, [0])] [(0, [0])] potsB [0] false =
      .error .typeError := by
  rfl

/-- C4: the spec says `propagate` is idempotent on calibrated tables.
AMENDED: the propagation computation the spec describes — `bp.hugin`
applied to every tree of the forest — is the pointwise identity on any
table that is calibrated on both sides of every separator with nonzero
separator potentials; the `JunctionTree.propagate` entry point itself
never returns (see the C4 counterexample and claim C5). -/
theorem C4_idempotence_amended (sizes : ℕ → ℕ) (trees : List JTree) (pots : Potentials)
    (hcalC : ∀ t ∈ trees, ∀ e ∈ edges t, ∀ a, pots e.sepId a =
      SumProduct.project sizes (pots e.childId) e.childKeys e.sepKeys a)
    (hcalP : ∀ t ∈ trees, ∀ e ∈ edges t, ∀ a, pots e.sepId a =
      SumProduct.project sizes (pots e.parentId) e.parentKeys e.sepKeys a)
    (hnz : ∀ t ∈ trees, ∀ e ∈ edges t, ∀ a, pots e.sepId a ≠ 0) :
    ∀ j a, huginForest sizes trees pots j a = pots j a := by
  induction trees generalizing pots with
  | nil => intro j a; rfl
  | cons t ts ih =>
    intro j a
    have hfix : ∀ j a, hugin sizes t pots j a = pots j a :=
      hugin_calibrated_fix sizes t pots (hcalC t (List.mem_cons_self _ _))
        (hcalP t (List.mem_cons_self _ _)) (hnz t (List.mem_cons_self _ _))
    have hstep : huginForest sizes (t :: ts) pots j a =
        huginForest sizes ts (hugin sizes t pots) j a := rfl
    rw [hstep]
    have hC : ∀ u ∈ ts, ∀ e ∈ edges u, ∀ b, (hugin sizes t pots) e.sepId b =
        SumProduct.project sizes ((hugin sizes t pots) e.childId) e.childKeys e.sepKeys b := by
      intro u hu e he b
      rw [hfix e.sepId b,
        project_congr sizes e.childKeys e.sepKeys (fun c => hfix e.childId c) b]
      exact hcalC u (List.mem_cons_of_mem _ hu) e he b
    have hP : ∀ u ∈ ts, ∀ e ∈ edges u, ∀ b, (hugin sizes t pots) e.sepId b =
        SumProduct.project sizes ((hugin sizes t pots) e.parentId) e.parentKeys e.sepKeys b := by
      intro u hu e he b
      rw [hfix e.sepId b,
        project_congr sizes e.parentKeys e.sepKeys (fun c => hfix e.parentId c) b]
      exact hcalP u (List.mem_cons_of_mem _ hu) e he b
    have hN : ∀ u ∈ ts, ∀ e ∈ edges u, ∀ b, (hugin sizes t pots) e.sepId b ≠ 0 := by
      intro u hu e he b
      rw [hfix e.sepId b]
      exact hnz u (List.mem_cons_of_mem _ hu) e he b
    rw [ih (hugin sizes t pots) hC hP hN j a]
    exact hfix j a

/-- C4 witness: on the all-ones calibrated table over `treeB`, one
forest-level propagation step leaves the clique-2 potential unchanged. -/
theorem C4_witness :
    huginForest sizes2 [treeB] potsOnes 2 asg1 = potsOnes 2 asg1 :=
  C4_idempotence_amended sizes2 [treeB] potsOnes
    (by
      intro t ht e he a
      rcases List.mem_singleton.mp ht with rfl
      simp only [edges, edgesL, treeB] at he
      rcases List.mem_singleton.mp he with rfl
      rfl)
    (by
      intro t ht e he a
      rcases List.mem_singleton.mp ht with rfl
      simp only [edges, edgesL, treeB] at he
      rcases List.mem_singleton.mp he with rfl
      rfl)
    (by
      intro t ht e he a
      rcases List.mem_singleton.mp ht with rfl
      simp only [edges, edgesL, treeB] at he
      rcases List.mem_singleton.mp he with rfl
      norm_num [potsOnes])
    2 asg1

/-- C4 counterexample to the claim as stated about `propagate`: the table
`potsB` is calibrated on both sides of the single separator of `treeB`,
yet `JunctionTree.propagate` on it returns TypeError rather than the same
table (the five-argument call of the four-parameter `bp.hugin`). -/
theorem C4_counterexample :
    (∀ e ∈ edges treeB, ∀ a,
      potsB e.sepId a = SumProduct.project sizes2 (potsB e.childId) e.childKeys e.sepKeys a ∧
      potsB e.sepId a = SumProduct.project sizes2 (potsB e.parentId) e.parentKeys e.sepKeys a) ∧
    jt_propagate sizes2 [0] [treeB] potsB none = .error .typeError := by
  constructor
  · intro e he a
    simp only [edges, edgesL, treeB] at he
    rcases List.mem_singleton.mp he with rfl
    exact ⟨rfl, rfl⟩
  · rfl

/-- C1: the spec says that after propagation with no evidence every
separator is calibrated on both sides.  AMENDED: this holds for the
forest propagation `bp.hugin` performs (hugin on every tree over a
shared table) PROVIDED every clique and separator potential is strictly
positive — with zero entries, `absorb`'s whole-tensor zero guard breaks
one side (see the C1 counterexample), and the `JunctionTree.propagate`
entry point itself raises TypeError before any propagation (claim C5). -/
theorem C1_calibration_amended (sizes : ℕ → ℕ) (trees : List JTree) (pots : Potentials)
    (hsz : ∀ k, 1 ≤ sizes k)
    (hnd : (trees.flatMap allIds).Nodup)
    (hwf : ∀ t ∈ trees, ∀ e ∈ edges t,
      (∀ k ∈ e.sepKeys, k ∈ e.parentKeys) ∧ (∀ k ∈ e.sepKeys, k ∈ e.childKeys))
    (hdep : ∀ t ∈ trees, ∀ p ∈ idKeys t, DependsOnlyOn p.2 (pots p.1))
    (hpos : ∀ t ∈ trees, ∀ p ∈ idKeys t, ∀ a, 0 < pots p.1 a) :
    ∀ t ∈ trees, ∀ e ∈ edges t, ∀ a,
      huginForest sizes trees pots e.sepId a =
        SumProduct.project sizes (huginForest sizes trees pots e.parentId)
          e.parentKeys e.sepKeys a ∧
      SumProduct.project sizes (huginForest sizes trees pots e.childId)
          e.childKeys e.sepKeys a = huginForest sizes trees pots e.sepId a :=
  (huginForest_spec sizes trees pots hsz hnd hwf hdep hpos).2

/-- C1 witness: on the strictly positive all-ones table over `treeB`,
forest propagation calibrates the single separator on both sides. -/
theorem C1_witness :
    huginForest sizes2 [treeB] potsOnes 1 asg0 =
      SumProduct.project sizes2 (huginForest sizes2 [treeB] potsOnes 0) [0] [0] asg0 ∧
    SumProduct.project sizes2 (huginForest sizes2 [treeB] potsOnes 2) [0] [0] asg0 =
      huginForest sizes2 [treeB] potsOnes 1 asg0 :=
  C1_calibration_amended sizes2 [treeB] potsOnes
    (fun k => by norm_num [sizes2])
    (by decide)
    (by decide)
    (by intro t ht p hp a b hab; rfl)
    (by intro t ht p hp a; norm_num [potsOnes])
    treeB (List.mem_singleton.mpr rfl) ⟨0, [0], 1, [0], 2, [0]⟩ (by decide) asg0

/-- C1 counterexample to the unqualified claim: on `treeA` with the table
`potsA` (whose clique-2 tensor has a zero slice), propagation leaves the
separator holding `[0, 2]` while the child clique has been zeroed
entirely, so projecting the child onto the separator keys gives 0 ≠ 2 at
assignment 1: calibration fails on the child side. -/
theorem C1_counterexample :
    (⟨0, [0], 1, [0], 2, [0, 1]⟩ : JEdge) ∈ edges treeA ∧
    ¬ (SumProduct.project sizes2 (huginForest sizes2 [treeA] potsA 2) [0, 1] [0] asg1 =
        huginForest sizes2 [treeA] potsA 1 asg1) := by
  constructor
  · decide
  · norm_num [huginForest, hugin, collect, collectL, distribute, distributeL,
      JTree.rootId, JTree.rootKeys, SumProduct.update, SumProduct.project,
      SumProduct.absorb, sumOver, gridAsgs, setVar, treeA, potsA, sizes2, asg1,
      List.range_succ]

set_option maxHeartbeats 1000000 in
/-- C10: the spec's golden three-key scenario: after the two-message pass
(project `phi12` to V2, absorb into `phi23` over old separator `phi2`;
project back, absorb into `phi12`), the calibrated `phi12` equals
`[[0.04, 0.72], [0.06, 0.18]]` within 1e-9 at every index. -/
theorem C10_theorem :
    |phi12_calibrated (asg2 0 0) - phi12_golden (asg2 0 0)| ≤ 1 / 1000000000 ∧
    |phi12_calibrated (asg2 0 1) - phi12_golden (asg2 0 1)| ≤ 1 / 1000000000 ∧
    |phi12_calibrated (asg2 1 0) - phi12_golden (asg2 1 0)| ≤ 1 / 1000000000 ∧
    |phi12_calibrated (asg2 1 1) - phi12_golden (asg2 1 1)| ≤ 1 / 1000000000 := by
  refine ⟨?_, ?_, ?_, ?_⟩ <;>
    norm_num [phi12_calibrated, SumProduct.project, SumProduct.absorb, sumOver, gridAsgs,
      setVar, phi12, phi2, phi23, phi12_golden, sizes2, asg2, List.range_succ]
